import Mathlib

/-!
Covid test scheduler: slot pools, booking and cancellation.

A shallow embedding of `covid_test_scheduler.cpp` / `covid_test_scheduler.h`.

Modelling choices.

* A text accepted by `QDate::fromString(_, "yyyy-MM-dd")` is carried as the number of the
  calendar day it denotes, a text accepted by `QTime::fromString(_, "hh:mm")` as the minute of
  the day it denotes; both formats are fixed width, so equal texts and equal values coincide.
  `QDateTime` values built from such a pair are compared lexicographically on (day, minute),
  as in a time zone without clock changes.
* `std::shared_ptr<TimeSlot>` is the index of the slot in `all_slots_`: every `TimeSlot` is
  allocated right before it is appended to `all_slots_`, and that vector is never reordered or
  shrunk.  Pools and bookings hold such indices, so the booked flag is shared as in the source.
* `std::priority_queue` over `std::vector`: the C++ standard defines `push` as `push_back`
  followed by `std::push_heap`, `pop` as `std::pop_heap` followed by `pop_back` and `top` as
  `front`, and requires of the two heap functions that the vector is a heap under the
  comparator afterwards.  The library code is outside the source tree; the embedding uses the
  classical sift-up and sift-down on the vector.  Which of two slots with equal timestamps is
  popped first depends on the library; no theorem below relies on it.
* `std::map<QString, priority_queue>` is an association list with one entry per key.
* Message boxes and status texts are the returned outcome; the contents of the widgets read
  by an operation are its arguments.  `cancelSlot` receives the position of the entry chosen
  in the dialog, which the source recovers with `indexOf` on the entry texts.
* The age argument of `bookSlot` stands for the local `patient_age`, read from the spin box
  `patient_age_input_`.  `Window` adds that spin box to the state: `windowBookSlot` reads the
  age from it, and what the spin box, which is library code, makes of a value asked of it is
  a parameter of which the theorems assume only what `setRange(1, 120)` in `setupUI` grants,
  that the value held stays within 1..120.
* Identifiers are unbounded naturals (`int` in the source, counted up from 1).
-/

namespace Scheduler

/-! ## Binary heap of `std::priority_queue` -/

namespace PriorityQueue

variable {α : Type}

/-- Exchange of the entries at positions `i` and `j` of the underlying vector. -/
def swap (xs : List α) (i j : Nat) : List α :=
  match xs[i]?, xs[j]? with
  | some a, some b => (xs.set i b).set j a
  | _, _ => xs

/-- Upward pass of `std::push_heap`: the entry at `i` moves towards the root while the
comparator ranks its parent below it.  The first argument bounds the number of levels climbed;
`i` levels always suffice. -/
def siftUp (comp : α → α → Bool) : Nat → List α → Nat → List α
  | 0, xs, _ => xs
  | fuel + 1, xs, i =>
    if i = 0 then xs
    else
      match xs[(i - 1) / 2]?, xs[i]? with
      | some p, some x =>
        if comp p x then siftUp comp fuel (swap xs ((i - 1) / 2) i) ((i - 1) / 2) else xs
      | _, _ => xs

/-- Downward pass of `std::pop_heap`: the entry at `i` moves towards the leaves while the
comparator ranks it below the preferred child.  The first argument bounds the number of levels
descended; the length of the vector always suffices. -/
def siftDown (comp : α → α → Bool) : Nat → List α → Nat → List α
  | 0, xs, _ => xs
  | fuel + 1, xs, i =>
    match xs[i]?, xs[2 * i + 1]? with
    | some x, some l =>
      match xs[2 * i + 2]? with
      | some r =>
        if comp r l then
          (if comp x l then siftDown comp fuel (swap xs i (2 * i + 1)) (2 * i + 1) else xs)
        else
          (if comp x r then siftDown comp fuel (swap xs i (2 * i + 2)) (2 * i + 2) else xs)
      | none => if comp x l then siftDown comp fuel (swap xs i (2 * i + 1)) (2 * i + 1) else xs
    | _, _ => xs

/-- `priority_queue::push`: `push_back` followed by `push_heap`. -/
def push (comp : α → α → Bool) (xs : List α) (x : α) : List α :=
  siftUp comp xs.length (xs ++ [x]) xs.length

/-- `priority_queue::top`: the front of the vector, `none` when the queue is empty. -/
def top (xs : List α) : Option α := xs.head?

/-- `priority_queue::pop`: `pop_heap` (the last entry takes the root and sinks) followed by
`pop_back`. -/
def pop (comp : α → α → Bool) (xs : List α) : List α :=
  match xs.getLast? with
  | none => []
  | some last => siftDown comp (xs.length - 1) ((xs.set 0 last).dropLast) 0

/-- The loop `while (!q.empty()) { x = q.top(); q.pop(); ... }` collecting the popped entries;
the loop runs once per entry, which is the fuel. -/
def popLoop (comp : α → α → Bool) : Nat → List α → List α
  | 0, _ => []
  | fuel + 1, xs =>
    match top xs with
    | none => []
    | some x => x :: popLoop comp fuel (pop comp xs)

end PriorityQueue

/-! ## Data model -/

/-- `class TimeSlot`. -/
structure TimeSlot where
  id_ : Nat
  time_ : Nat
  date_ : Nat
  is_booked_ : Bool
deriving DecidableEq, Repr

instance : Inhabited TimeSlot := ⟨⟨0, 0, 0, false⟩⟩

/-- `TimeSlot::operator>`: comparison of the `QDateTime` values of the two slots. -/
def TimeSlot.gt (a other : TimeSlot) : Bool :=
  decide (other.date_ < a.date_) || (other.date_ == a.date_ && decide (other.time_ < a.time_))

/-- `TimeSlot::operator<`. -/
def TimeSlot.lt (a other : TimeSlot) : Bool :=
  decide (a.date_ < other.date_) || (a.date_ == other.date_ && decide (a.time_ < other.time_))

/-- `TimeSlot::operator==`: equality of identifiers. -/
def TimeSlot.eq (a other : TimeSlot) : Bool := a.id_ == other.id_

/-- `class Patient`; `assigned_slot_` is the shared pointer to the slot. -/
structure Patient where
  name_ : String
  age_ : Int
  assigned_slot_ : Nat
  booking_time_ : Nat
deriving DecidableEq, Repr

/-- The pool of one date: the vector inside the `std::priority_queue`. -/
abbrev SlotQueue := List Nat

/-- `std::map<QString, std::priority_queue<...>>`. -/
abbrev SlotMap := List (Nat × SlotQueue)

/-- Data members of `class CovidTestScheduler`. -/
structure State where
  slotsByDate_ : SlotMap
  patient_bookings_ : List Patient
  all_slots_ : List TimeSlot
  next_slot_id_ : Nat
deriving DecidableEq, Repr

/-- Dereference of a slot pointer. -/
def deref (slots : List TimeSlot) (p : Nat) : TimeSlot := slots.getD p default

/-- `TimeSlotComparator::operator()`: `*a > *b`. -/
def TimeSlotComparator (slots : List TimeSlot) (a b : Nat) : Bool :=
  (deref slots a).gt (deref slots b)

/-- `TimeSlot::setBooked` through a pointer. -/
def setBooked (slots : List TimeSlot) (p : Nat) (booked : Bool) : List TimeSlot :=
  slots.modify (fun slot => { slot with is_booked_ := booked }) p

/-- Lookup in the map, `std::map::find`. -/
def mapFind : SlotMap → Nat → Option SlotQueue
  | [], _ => none
  | (k, q) :: rest, d => if k = d then some q else mapFind rest d

/-- `std::map::count`. -/
def mapCount (m : SlotMap) (d : Nat) : Nat := if (mapFind m d).isSome then 1 else 0

/-- Read through `operator[]`: the stored pool, or the empty pool of a fresh entry. -/
def mapAt (m : SlotMap) (d : Nat) : SlotQueue := (mapFind m d).getD []

/-- Write through the reference returned by `operator[]`; a missing entry is created. -/
def mapSet : SlotMap → Nat → SlotQueue → SlotMap
  | [], d, q => [(d, q)]
  | (k, v) :: rest, d, q => if k = d then (d, q) :: rest else (k, v) :: mapSet rest d q

/-- State after the member initialisers of the constructor, before `addSampleSlots`. -/
def init : State := ⟨[], [], [], 1⟩

/-- The three statements shared by `addSampleSlots` and `addSlot`: allocate the slot with the
next identifier, append it to `all_slots_`, push it on the pool of its date. -/
def createSlot (s : State) (date time : Nat) : State :=
  let slots := s.all_slots_ ++ [⟨s.next_slot_id_, time, date, false⟩]
  { s with
    next_slot_id_ := s.next_slot_id_ + 1
    all_slots_ := slots
    slotsByDate_ := mapSet s.slotsByDate_ date
      (PriorityQueue.push (TimeSlotComparator slots) (mapAt s.slotsByDate_ date)
        s.all_slots_.length) }

/-- The list `times` of `addSampleSlots`, as minutes of the day. -/
def sampleTimes : List Nat := [540, 570, 600, 630, 660, 690, 840, 870, 900, 930]

/-- `CovidTestScheduler::addSampleSlots`, with `QDate::currentDate()` as argument. -/
def addSampleSlots (s : State) (today : Nat) : State :=
  [0, 1, 2].foldl (fun s day => sampleTimes.foldl (fun s time => createSlot s (today + day) time) s) s

/-- State of the window when the constructor returns. -/
def seeded (today : Nat) : State := addSampleSlots init today

/-- Trimmed text of a line edit as the validation sees it. -/
inductive Input where
  | empty
  | malformed
  | value (n : Nat)
deriving DecidableEq, Repr

/-- Message shown by `addSlot`. -/
inductive AddResult where
  | inputError
  | dateError
  | timeError
  | duplicateSlot
  | added (id : Nat)
deriving DecidableEq, Repr

/-- `CovidTestScheduler::addSlot`. -/
def addSlot (s : State) (date time : Input) : AddResult × State :=
  match date, time with
  | .empty, _ => (.inputError, s)
  | _, .empty => (.inputError, s)
  | .malformed, _ => (.dateError, s)
  | _, .malformed => (.timeError, s)
  | .value d, .value t =>
    if s.all_slots_.any (fun slot => slot.date_ == d && slot.time_ == t) then (.duplicateSlot, s)
    else (.added s.next_slot_id_, createSlot s d t)

/-- Message shown by `bookSlot`. -/
inductive BookResult where
  | inputError
  | noSlotsAvailable
  | selectionError
  | slotError
  | bookingConfirmed (slot : Nat)
deriving DecidableEq, Repr

/-- The first loop of `bookSlot`: the pool is popped until empty; a popped slot with the
selected identifier that is not booked becomes `selected_slot`, every other one is appended to
`temp_slots`.  The loop runs once per entry of the pool, which is the first numeric argument. -/
def drain (comp : Nat → Nat → Bool) (slots : List TimeSlot) (selected_slot_id : Nat) :
    Nat → SlotQueue → List Nat → Option Nat → SlotQueue × List Nat × Option Nat
  | 0, q, temp_slots, selected_slot => (q, temp_slots, selected_slot)
  | fuel + 1, q, temp_slots, selected_slot =>
    match PriorityQueue.top q with
    | none => (q, temp_slots, selected_slot)
    | some slot =>
      if (deref slots slot).id_ == selected_slot_id && !(deref slots slot).is_booked_ then
        drain comp slots selected_slot_id fuel (PriorityQueue.pop comp q) temp_slots (some slot)
      else
        drain comp slots selected_slot_id fuel (PriorityQueue.pop comp q) (temp_slots ++ [slot])
          selected_slot

/-- `CovidTestScheduler::bookSlot`; `selection` is the item data of the combo box entry, `now`
the clock read by the `Patient` constructor. -/
def bookSlot (s : State) (selected_date : Nat) (selection : Option Nat) (patient_name : String)
    (patient_age : Int) (now : Nat) : BookResult × State :=
  if patient_name.isEmpty then (.inputError, s)
  else if mapCount s.slotsByDate_ selected_date == 0 || (mapAt s.slotsByDate_ selected_date).isEmpty
  then (.noSlotsAvailable, s)
  else
    match selection with
    | none => (.selectionError, s)
    | some selected_slot_id =>
      let comp := TimeSlotComparator s.all_slots_
      let q := mapAt s.slotsByDate_ selected_date
      let r := drain comp s.all_slots_ selected_slot_id q.length q [] none
      let q1 := r.2.1.foldl (PriorityQueue.push comp) r.1
      let m1 := mapSet s.slotsByDate_ selected_date q1
      match r.2.2 with
      | none => (.slotError, { s with slotsByDate_ := m1 })
      | some selected_slot =>
        (.bookingConfirmed selected_slot,
          { s with
            slotsByDate_ := m1
            all_slots_ := setBooked s.all_slots_ selected_slot true
            patient_bookings_ :=
              s.patient_bookings_ ++ [⟨patient_name, patient_age, selected_slot, now⟩] })

/-- Message shown by `cancelSlot`. -/
inductive CancelResult where
  | noBookings
  | dismissed
  | bookingCancelled
deriving DecidableEq, Repr

/-- `CovidTestScheduler::cancelSlot`; `choice` is the index of the entry picked in the dialog,
`none` when the dialog is dismissed. -/
def cancelSlot (s : State) (choice : Option Nat) : CancelResult × State :=
  if s.patient_bookings_.isEmpty then (.noBookings, s)
  else
    match choice with
    | none => (.dismissed, s)
    | some index =>
      match s.patient_bookings_[index]? with
      | none => (.dismissed, s)
      | some patient =>
        let slot := patient.assigned_slot_
        let slots := setBooked s.all_slots_ slot false
        let date := (deref slots slot).date_
        (.bookingCancelled,
          { s with
            all_slots_ := slots
            slotsByDate_ := mapSet s.slotsByDate_ date
              (PriorityQueue.push (TimeSlotComparator slots) (mapAt s.slotsByDate_ date) slot)
            patient_bookings_ := s.patient_bookings_.eraseIdx index })

/-- `CovidTestScheduler::updateAvailableSlotsForSelectedDate`: the slots listed for the date,
in the order in which the copy of the pool is popped. -/
def updateAvailableSlotsForSelectedDate (s : State) (selected_date : Nat) : List TimeSlot :=
  if mapCount s.slotsByDate_ selected_date != 0 && !(mapAt s.slotsByDate_ selected_date).isEmpty
  then
    let temp_queue := mapAt s.slotsByDate_ selected_date
    (PriorityQueue.popLoop (TimeSlotComparator s.all_slots_) temp_queue.length temp_queue).map
      (deref s.all_slots_)
  else []

/-- The operation `listAvailable` of the specification. -/
abbrev listAvailable (s : State) (d : Nat) : List TimeSlot :=
  updateAvailableSlotsForSelectedDate s d

/-- The operation `listBookings` of the specification: the rows of `updateBookingsTable`. -/
def listBookings (s : State) : List Patient := s.patient_bookings_

/-- One call of a state changing operation of the window. -/
inductive Call where
  | addSlot (date time : Input)
  | bookSlot (selected_date : Nat) (selection : Option Nat) (patient_name : String)
      (patient_age : Int) (now : Nat)
  | cancelSlot (choice : Option Nat)
deriving DecidableEq, Repr

/-- State after one call. -/
def step (s : State) : Call → State
  | .addSlot date time => (addSlot s date time).2
  | .bookSlot d sel name age now => (bookSlot s d sel name age now).2
  | .cancelSlot choice => (cancelSlot s choice).2

/-- States reachable from the empty or the seeded start by calls of the three operations. -/
inductive Reachable : State → Prop where
  | init : Reachable init
  | seeded (today : Nat) : Reachable (seeded today)
  | step (s : State) (c : Call) : Reachable s → Reachable (step s c)

/-! ## Heap order -/

namespace PriorityQueue

variable {α K : Type} [LinearOrder K]

/-- Heap order of the vector for a comparator that ranks `a` below `b` when `key b < key a`:
no entry has a key below the key of its parent. -/
def IsHeap (key : α → K) (xs : List α) : Prop :=
  ∀ j a b, 0 < j → xs[(j - 1) / 2]? = some a → xs[j]? = some b → key a ≤ key b

/-- Heap order everywhere except on the edge into position `i`, whose children are already
above its parent. -/
def UpOk (key : α → K) (xs : List α) (i : Nat) : Prop :=
  (∀ j a b, 0 < j → j ≠ i → xs[(j - 1) / 2]? = some a → xs[j]? = some b → key a ≤ key b) ∧
  (∀ j a b, 0 < i → 0 < j → (j - 1) / 2 = i → xs[(i - 1) / 2]? = some a → xs[j]? = some b →
    key a ≤ key b)

/-- Heap order everywhere except on the edges out of position `i`, whose children are already
above its parent. -/
def DownOk (key : α → K) (xs : List α) (i : Nat) : Prop :=
  (∀ j a b, 0 < j → (j - 1) / 2 ≠ i → xs[(j - 1) / 2]? = some a → xs[j]? = some b →
    key a ≤ key b) ∧
  (∀ j a b, 0 < i → 0 < j → (j - 1) / 2 = i → xs[(i - 1) / 2]? = some a → xs[j]? = some b →
    key a ≤ key b)

end PriorityQueue

/-! ## Invariant of the scheduler -/

/-- Timestamp of the slot behind a pointer, in the order of `QDateTime` values. -/
def slotKey (slots : List TimeSlot) (p : Nat) : Nat ×ₗ Nat :=
  toLex ((deref slots p).date_, (deref slots p).time_)

/-- The pointer refers to an unbooked slot of date `d`. -/
def Free (slots : List TimeSlot) (d p : Nat) : Prop :=
  ∃ slot, slots[p]? = some slot ∧ slot.date_ = d ∧ slot.is_booked_ = false

/-- The pointer refers to a booked slot. -/
def Booked (slots : List TimeSlot) (p : Nat) : Prop :=
  ∃ slot, slots[p]? = some slot ∧ slot.is_booked_ = true

/-- Consistency of registry, pools and ledger. -/
structure Inv (s : State) : Prop where
  ids : ∀ (i : Nat) (slot : TimeSlot), s.all_slots_[i]? = some slot → slot.id_ = i + 1
  next : s.next_slot_id_ = s.all_slots_.length + 1
  distinct : ∀ (i j : Nat) (a b : TimeSlot), s.all_slots_[i]? = some a →
    s.all_slots_[j]? = some b → a.date_ = b.date_ → a.time_ = b.time_ → i = j
  keys : (s.slotsByDate_.map Prod.fst).Nodup
  heap : ∀ d, PriorityQueue.IsHeap (slotKey s.all_slots_) (mapAt s.slotsByDate_ d)
  nodup : ∀ d, (mapAt s.slotsByDate_ d).Nodup
  pool : ∀ d p, p ∈ mapAt s.slotsByDate_ d ↔ Free s.all_slots_ d p
  ledger_nodup : (s.patient_bookings_.map (fun b => b.assigned_slot_)).Nodup
  ledger : ∀ p, p ∈ s.patient_bookings_.map (fun b => b.assigned_slot_) ↔ Booked s.all_slots_ p
  conservation : s.all_slots_.length =
    (s.slotsByDate_.map (fun e => e.2.length)).sum + s.patient_bookings_.length

/-- Test of the first loop of `bookSlot`: the slot behind the pointer has the selected
identifier and is not booked. -/
def isTarget (slots : List TimeSlot) (selected_slot_id : Nat) (p : Nat) : Bool :=
  (deref slots p).id_ == selected_slot_id && !(deref slots p).is_booked_

/-- Pointers of the slots listed for a date, in the order of the listing. -/
def available (s : State) (d : Nat) : List Nat :=
  PriorityQueue.popLoop (TimeSlotComparator s.all_slots_) (mapAt s.slotsByDate_ d).length
    (mapAt s.slotsByDate_ d)

/-- The (day offset, time) pairs of `addSampleSlots` in creation order. -/
def sampleOffsets : List (Nat × Nat) :=
  [0, 1, 2].flatMap (fun day => sampleTimes.map (fun time => (day, time)))

/-- State after a sequence of calls. -/
def run (s : State) (calls : List Call) : State := calls.foldl step s

/-- A session used to instantiate the theorems: five slots are added out of time order and
the slot with identifier 1 is booked. -/
def demo : State :=
  run init
    [.addSlot (.value 15) (.value 570), .addSlot (.value 15) (.value 540),
      .addSlot (.value 16) (.value 600), .addSlot (.value 15) (.value 555),
      .addSlot (.value 15) (.value 500), .bookSlot 15 (some 1) "Alice" 30 0]

/-! ## The age field of the window -/

namespace PriorityQueue

variable {α K : Type} [LinearOrder K]

theorem lt_length_of_getElem {xs : List α} {i : Nat} {a : α} (h : xs[i]? = some a) :
    i < xs.length := by
  by_contra hn
  rw [List.getElem?_eq_none (by omega)] at h
  exact Option.noConfusion h

theorem getElem_swap (xs : List α) (i j k : Nat) (a b : α) (hi : xs[i]? = some a)
    (hj : xs[j]? = some b) :
    (swap xs i j)[k]? = if k = j then some a else if k = i then some b else xs[k]? := by
  have h1 := lt_length_of_getElem hi
  have h2 := lt_length_of_getElem hj
  unfold swap
  rw [hi, hj]
  simp only [List.getElem?_set, List.length_set]
  by_cases hkj : k = j
  · subst hkj; simp [h2]
  · by_cases hki : k = i
    · subst hki
      have : ¬ j = k := fun h => hkj h.symm
      simp [this, hkj, h1]
    · have e1 : ¬ j = k := fun h => hkj h.symm
      have e2 : ¬ i = k := fun h => hki h.symm
      simp [e1, e2, hkj, hki]

theorem length_swap (xs : List α) (i j : Nat) : (swap xs i j).length = xs.length := by
  unfold swap
  split <;> simp

theorem set_perm_cons : ∀ (t : List α) (j : Nat) (a b : α), t[j]? = some b →
    (b :: t.set j a).Perm (a :: t)
  | [], j, a, b, h => by simp at h
  | y :: t, 0, a, b, h => by
    simp at h
    subst h
    simpa using List.Perm.swap a y t
  | y :: t, j + 1, a, b, h => by
    simp at h
    have ih := set_perm_cons t j a b h
    simp only [List.set_cons_succ]
    exact ((List.Perm.swap y b _).trans (ih.cons y)).trans (List.Perm.swap a y t)

theorem swap_perm : ∀ (xs : List α) (i j : Nat), (swap xs i j).Perm xs := by
  intro xs i j
  unfold swap
  split
  next a b hi hj =>
    clear * - hi hj
    induction xs generalizing i j with
    | nil => simp at hi
    | cons x t ih =>
      cases i with
      | zero =>
        simp at hi
        subst hi
        cases j with
        | zero => simp at hj; subst hj; simp
        | succ j =>
          simp at hj
          simpa using set_perm_cons t j x b hj
      | succ i =>
        simp at hi
        cases j with
        | zero =>
          simp at hj
          subst hj
          simpa using set_perm_cons t i x a hi
        | succ j =>
          simp at hj
          simpa using ih i j hi hj
  next => exact List.Perm.refl _

theorem siftUp_perm (comp : α → α → Bool) : ∀ (fuel : Nat) (xs : List α) (i : Nat),
    (siftUp comp fuel xs i).Perm xs
  | 0, xs, i => List.Perm.refl _
  | fuel + 1, xs, i => by
    unfold siftUp
    split
    · exact List.Perm.refl _
    · split
      · split
        · exact (siftUp_perm comp fuel _ _).trans (swap_perm xs _ _)
        · exact List.Perm.refl _
      · exact List.Perm.refl _

theorem siftDown_perm (comp : α → α → Bool) : ∀ (fuel : Nat) (xs : List α) (i : Nat),
    (siftDown comp fuel xs i).Perm xs
  | 0, xs, i => List.Perm.refl _
  | fuel + 1, xs, i => by
    unfold siftDown
    repeat' split
    all_goals first
      | exact List.Perm.refl _
      | exact (siftDown_perm comp fuel _ _).trans (swap_perm xs _ _)

theorem isHeap_of_upOk_zero {key : α → K} {xs : List α} (h : UpOk key xs 0) : IsHeap key xs :=
  fun j a b hj ha hb => h.1 j a b hj (by omega) ha hb

theorem siftUp_isHeap {key : α → K} {comp : α → α → Bool}
    (hc : ∀ a b, comp a b = true ↔ key b < key a) :
    ∀ (fuel : Nat) (xs : List α) (i : Nat), i ≤ fuel → UpOk key xs i →
      IsHeap key (siftUp comp fuel xs i)
  | 0, xs, i, hi, h => by
    have : i = 0 := by omega
    subst this
    exact isHeap_of_upOk_zero h
  | fuel + 1, xs, i, hi, h => by
    unfold siftUp
    split
    next h0 => subst h0; exact isHeap_of_upOk_zero h
    next h0 =>
      have hpos : 0 < i := by omega
      split
      next p x hp hx =>
        split
        next hcmp =>
          have hlt : key x < key p := (hc p x).1 hcmp
          apply siftUp_isHeap hc fuel _ _ (by omega)
          constructor
          · intro j a b hj hne ha hb
            rw [getElem_swap xs _ _ _ p x hp hx] at ha hb
            by_cases hji : j = i
            · subst hji
              have e1 : ¬ ((j - 1) / 2 = j) := by omega
              simp only [e1, if_false, if_true] at ha hb
              cases ha; cases hb
              exact le_of_lt hlt
            · simp only [hji, hne, if_false] at hb
              by_cases hpi : (j - 1) / 2 = i
              · simp only [hpi, if_true] at ha
                cases ha
                exact h.2 j p b hpos hj hpi hp hb
              · simp only [hpi, if_false] at ha
                by_cases hpp : (j - 1) / 2 = (i - 1) / 2
                · simp only [hpp, if_true] at ha
                  cases ha
                  have := h.1 j p b hj hji (hpp ▸ hp) hb
                  exact le_trans (le_of_lt hlt) this
                · simp only [hpp, if_false] at ha
                  exact h.1 j a b hj hji ha hb
          · intro j a b hppos hj hpj ha hb
            rw [getElem_swap xs _ _ _ p x hp hx] at ha hb
            have e1 : ¬ (((i - 1) / 2 - 1) / 2 = i) := by omega
            have e2 : ¬ (((i - 1) / 2 - 1) / 2 = (i - 1) / 2) := by omega
            simp only [e1, e2, if_false] at ha
            have hgp : key a ≤ key p := h.1 ((i - 1) / 2) a p hppos (by omega) ha hp
            by_cases hji : j = i
            · simp only [hji, if_true] at hb
              cases hb
              exact hgp
            · have e3 : ¬ (j = (i - 1) / 2) := by omega
              simp only [hji, e3, if_false] at hb
              exact le_trans hgp (h.1 j p b hj hji (hpj ▸ hp) hb)
        next hcmp =>
          have hle : key p ≤ key x := by
            have := mt (hc p x).2 hcmp
            exact not_lt.1 this
          intro j a b hj ha hb
          by_cases hji : j = i
          · subst hji
            rw [hp] at ha; rw [hx] at hb
            cases ha; cases hb
            exact hle
          · exact h.1 j a b hj hji ha hb
      next hnone =>
        intro j a b hj ha hb
        by_cases hji : j = i
        · subst hji
          exact (hnone a b ha hb).elim
        · exact h.1 j a b hj hji ha hb

theorem isHeap_of_downOk {key : α → K} {xs : List α} {i : Nat} (h : DownOk key xs i)
    (hch : ∀ j a b, 0 < j → (j - 1) / 2 = i → xs[i]? = some a → xs[j]? = some b →
      key a ≤ key b) : IsHeap key xs := by
  intro j a b hj ha hb
  by_cases hp : (j - 1) / 2 = i
  · exact hch j a b hj hp (hp ▸ ha) hb
  · exact h.1 j a b hj hp ha hb

theorem downOk_swap {key : α → K} {xs : List α} {i c : Nat} {x w : α} (h : DownOk key xs i)
    (hx : xs[i]? = some x) (hw : xs[c]? = some w) (hc : c = 2 * i + 1 ∨ c = 2 * i + 2)
    (hlt : key w < key x)
    (hsib : ∀ j b, (j = 2 * i + 1 ∨ j = 2 * i + 2) → xs[j]? = some b → key w ≤ key b) :
    DownOk key (swap xs i c) c := by
  have hci : ¬ (c = i) := by omega
  have hic : ¬ (i = c) := by omega
  have hsi : (swap xs i c)[i]? = some w := by
    rw [getElem_swap xs _ _ _ x w hx hw, if_neg hic, if_pos rfl]
  have hsc : (swap xs i c)[c]? = some x := by
    rw [getElem_swap xs _ _ _ x w hx hw, if_pos rfl]
  have hso : ∀ k, k ≠ i → k ≠ c → (swap xs i c)[k]? = xs[k]? := by
    intro k h1 h2
    rw [getElem_swap xs _ _ _ x w hx hw, if_neg h2, if_neg h1]
  constructor
  · intro j a b hj hne ha hb
    by_cases hjc : j = c
    · have e1 : (j - 1) / 2 = i := by omega
      rw [e1, hsi] at ha
      rw [hjc, hsc] at hb
      cases ha; cases hb
      exact le_of_lt hlt
    · by_cases hji : j = i
      · rw [hji, hsi] at hb
        cases hb
        rw [hso _ (by omega) hne] at ha
        exact h.2 c a w (by omega) (by omega) (by omega) (hji ▸ ha) hw
      · rw [hso j hji hjc] at hb
        by_cases hpi : (j - 1) / 2 = i
        · rw [hpi, hsi] at ha
          cases ha
          exact hsib j b (by omega) hb
        · rw [hso _ hpi hne] at ha
          exact h.1 j a b hj hpi ha hb
  · intro j a b hcpos hj hpj ha hb
    have e1 : (c - 1) / 2 = i := by omega
    rw [e1, hsi] at ha
    rw [hso j (by omega) (by omega)] at hb
    cases ha
    exact h.1 j w b hj (by omega) (hpj ▸ hw) hb

theorem siftDown_isHeap {key : α → K} {comp : α → α → Bool}
    (hc : ∀ a b, comp a b = true ↔ key b < key a) :
    ∀ (fuel : Nat) (xs : List α) (i : Nat), xs.length ≤ i + fuel → DownOk key xs i →
      IsHeap key (siftDown comp fuel xs i)
  | 0, xs, i, hi, h => by
    show IsHeap key xs
    refine isHeap_of_downOk h ?_
    intro j a b hj hp ha hb
    have := lt_length_of_getElem hb
    omega
  | fuel + 1, xs, i, hi, h => by
    have hnc : ∀ a b, ¬ comp a b = true → key a ≤ key b := fun a b hn =>
      not_lt.1 (mt (hc a b).2 hn)
    unfold siftDown
    split
    next x l hx hl =>
      split
      next r hr =>
        split
        next hrl =>
          have hlr : key l < key r := (hc r l).1 hrl
          split
          next hxl =>
            apply siftDown_isHeap hc fuel _ _ (by rw [length_swap]; omega)
            refine downOk_swap h hx hl (Or.inl rfl) ((hc x l).1 hxl) ?_
            rintro j b (rfl | rfl) hb
            · rw [hl] at hb; cases hb; exact le_refl _
            · rw [hr] at hb; cases hb; exact le_of_lt hlr
          next hxl =>
            refine isHeap_of_downOk h ?_
            intro j a b hj hp ha hb
            rw [hx] at ha; cases ha
            have hj2 : j = 2 * i + 1 ∨ j = 2 * i + 2 := by omega
            rcases hj2 with rfl | rfl
            · rw [hl] at hb; cases hb; exact hnc _ _ hxl
            · rw [hr] at hb; cases hb; exact le_trans (hnc _ _ hxl) (le_of_lt hlr)
        next hrl =>
          have hlr : key r ≤ key l := hnc _ _ hrl
          split
          next hxr =>
            apply siftDown_isHeap hc fuel _ _ (by rw [length_swap]; omega)
            refine downOk_swap h hx hr (Or.inr rfl) ((hc x r).1 hxr) ?_
            rintro j b (rfl | rfl) hb
            · rw [hl] at hb; cases hb; exact hlr
            · rw [hr] at hb; cases hb; exact le_refl _
          next hxr =>
            refine isHeap_of_downOk h ?_
            intro j a b hj hp ha hb
            rw [hx] at ha; cases ha
            have hj2 : j = 2 * i + 1 ∨ j = 2 * i + 2 := by omega
            rcases hj2 with rfl | rfl
            · rw [hl] at hb; cases hb; exact le_trans (hnc _ _ hxr) hlr
            · rw [hr] at hb; cases hb; exact hnc _ _ hxr
      next hr =>
        split
        next hxl =>
          apply siftDown_isHeap hc fuel _ _ (by rw [length_swap]; omega)
          refine downOk_swap h hx hl (Or.inl rfl) ((hc x l).1 hxl) ?_
          rintro j b (rfl | rfl) hb
          · rw [hl] at hb; cases hb; exact le_refl _
          · rw [hr] at hb; cases hb
        next hxl =>
          refine isHeap_of_downOk h ?_
          intro j a b hj hp ha hb
          rw [hx] at ha; cases ha
          have hj2 : j = 2 * i + 1 ∨ j = 2 * i + 2 := by omega
          rcases hj2 with rfl | rfl
          · rw [hl] at hb; cases hb; exact hnc _ _ hxl
          · rw [hr] at hb; cases hb
    next hnone =>
      refine isHeap_of_downOk h ?_
      intro j a b hj hp ha hb
      have hj2 : j = 2 * i + 1 ∨ j = 2 * i + 2 := by omega
      rcases hj2 with rfl | rfl
      · exact (hnone a b ha hb).elim
      · have hlen := lt_length_of_getElem hb
        have : ∃ l, xs[2 * i + 1]? = some l := ⟨xs[2 * i + 1], List.getElem?_eq_getElem (by omega)⟩
        obtain ⟨l, hl⟩ := this
        exact (hnone a l ha hl).elim

theorem isHeap_nil (key : α → K) : IsHeap key [] := by
  intro j a b _ _ hb
  simp at hb

theorem push_perm (comp : α → α → Bool) (xs : List α) (x : α) :
    (push comp xs x).Perm (x :: xs) :=
  (siftUp_perm comp _ _ _).trans (List.perm_append_singleton x xs)

theorem push_isHeap {key : α → K} {comp : α → α → Bool}
    (hc : ∀ a b, comp a b = true ↔ key b < key a) {xs : List α} (h : IsHeap key xs) (x : α) :
    IsHeap key (push comp xs x) := by
  apply siftUp_isHeap hc _ _ _ (le_refl _)
  constructor
  · intro j a b hj hne ha hb
    have hjlt := lt_length_of_getElem hb
    simp only [List.length_append, List.length_singleton] at hjlt
    rw [List.getElem?_append_left (by omega)] at ha hb
    exact h j a b hj ha hb
  · intro j a b _ hj hpj _ hb
    have hjlt := lt_length_of_getElem hb
    simp only [List.length_append, List.length_singleton] at hjlt
    omega

theorem top_le {key : α → K} {xs : List α} (h : IsHeap key xs) {a : α} (ha : top xs = some a) :
    ∀ b ∈ xs, key a ≤ key b := by
  have h0 : xs[0]? = some a := by
    cases xs with
    | nil => simp [top] at ha
    | cons y t => simpa [top] using ha
  have key_le : ∀ (j : Nat) (b : α), xs[j]? = some b → key a ≤ key b := by
    intro j
    induction j using Nat.strong_induction_on with
    | _ j ih =>
      intro b hb
      by_cases hj : j = 0
      · subst hj
        rw [h0] at hb; cases hb; exact le_refl _
      · have hlt := lt_length_of_getElem hb
        have hp : xs[(j - 1) / 2]? = some (xs[(j - 1) / 2]) :=
          List.getElem?_eq_getElem (by omega)
        exact le_trans (ih _ (by omega) _ hp) (h j _ b (by omega) hp hb)
  intro b hb
  obtain ⟨j, hj⟩ := List.getElem?_of_mem hb
  exact key_le j b hj

theorem pop_perm (comp : α → α → Bool) {xs : List α} {a : α} (ha : top xs = some a) :
    (a :: pop comp xs).Perm xs := by
  cases xs with
  | nil => simp [top] at ha
  | cons y t =>
    simp [top] at ha
    subst ha
    unfold pop
    cases ht : t.getLast? with
    | none =>
      have : t = [] := by simpa using ht
      subst this
      simp [siftDown]
    | some l =>
      have hl : (y :: t).getLast? = some l := by
        rw [List.getLast?_cons, ht]; rfl
      rw [hl]
      simp only
      refine ((siftDown_perm comp _ _ _).cons y).trans ?_
      have hne : t ≠ [] := by rintro rfl; simp at ht
      have hsplit : t = t.dropLast ++ [l] := by
        have := List.dropLast_append_getLast? l (by simpa using ht)
        exact this.symm
      have : ((y :: t).set 0 l).dropLast = l :: t.dropLast := by
        simp only [List.set_cons_zero]
        cases t with
        | nil => exact absurd rfl hne
        | cons z t => rfl
      rw [this]
      refine List.Perm.cons y ?_
      conv_rhs => rw [hsplit]
      exact (List.perm_append_singleton l _).symm

theorem pop_length (comp : α → α → Bool) {xs : List α} {a : α} (ha : top xs = some a) :
    (pop comp xs).length + 1 = xs.length := by
  simpa using (pop_perm comp ha).length_eq

theorem pop_isHeap {key : α → K} {comp : α → α → Bool}
    (hc : ∀ a b, comp a b = true ↔ key b < key a) {xs : List α} (h : IsHeap key xs) :
    IsHeap key (pop comp xs) := by
  unfold pop
  split
  · exact isHeap_nil key
  next l hl =>
    apply siftDown_isHeap hc
    · simp
    · constructor
      · intro j a b hj hne ha hb
        rw [List.getElem?_dropLast] at ha hb
        split at ha
        · split at hb
          · rw [List.getElem?_set_ne (by omega)] at ha hb
            exact h j a b hj ha hb
          · cases hb
        · cases ha
      · intro j a b h0
        omega

theorem popLoop_spec {key : α → K} {comp : α → α → Bool}
    (hc : ∀ a b, comp a b = true ↔ key b < key a) :
    ∀ (fuel : Nat) (xs : List α), xs.length ≤ fuel → IsHeap key xs →
      (popLoop comp fuel xs).Perm xs ∧
        (popLoop comp fuel xs).Sorted (fun a b => key a ≤ key b)
  | 0, xs, hlen, _ => by
    have : xs = [] := List.eq_nil_of_length_eq_zero (by omega)
    subst this
    simp [popLoop]
  | fuel + 1, xs, hlen, h => by
    unfold popLoop
    cases ht : top xs with
    | none =>
      have : xs = [] := by simpa [top] using ht
      subst this
      simp
    | some a =>
      simp only
      have hlen2 := pop_length comp ht
      obtain ⟨ih1, ih2⟩ := popLoop_spec hc fuel (pop comp xs) (by omega) (pop_isHeap hc h)
      refine ⟨(ih1.cons a).trans (pop_perm comp ht), ?_⟩
      refine List.sorted_cons.2 ⟨?_, ih2⟩
      intro b hb
      have hb2 : b ∈ pop comp xs := ih1.subset hb
      have hb3 : b ∈ xs := (pop_perm comp ht).subset (List.mem_cons_of_mem _ hb2)
      exact top_le h ht b hb3

end PriorityQueue

/-! ## The map of pools -/

theorem mapFind_mapSet (m : SlotMap) (d : Nat) (q : SlotQueue) (e : Nat) :
    mapFind (mapSet m d q) e = if e = d then some q else mapFind m e := by
  induction m with
  | nil =>
    simp only [mapSet, mapFind]
    by_cases h : e = d
    · simp [h]
    · have : ¬ d = e := fun h2 => h h2.symm
      simp [h, this]
  | cons x m ih =>
    obtain ⟨k, v⟩ := x
    simp only [mapSet]
    by_cases hk : k = d
    · subst hk
      simp only [if_true, mapFind]
      by_cases h : e = k
      · subst h; simp
      · have : ¬ k = e := fun h2 => h h2.symm
        simp [h, this]
    · simp only [hk, if_false, mapFind, ih]
      by_cases h : k = e
      · subst h; simp [hk]
      · simp [h]

theorem mapAt_mapSet (m : SlotMap) (d : Nat) (q : SlotQueue) (e : Nat) :
    mapAt (mapSet m d q) e = if e = d then q else mapAt m e := by
  unfold mapAt
  rw [mapFind_mapSet]
  split <;> rfl

theorem mapAt_mapSet_self (m : SlotMap) (d : Nat) (q : SlotQueue) :
    mapAt (mapSet m d q) d = q := by
  rw [mapAt_mapSet, if_pos rfl]

theorem mapAt_mapSet_ne (m : SlotMap) {d e : Nat} (q : SlotQueue) (h : e ≠ d) :
    mapAt (mapSet m d q) e = mapAt m e := by
  rw [mapAt_mapSet, if_neg h]

theorem mapFind_eq_none_iff (m : SlotMap) (d : Nat) :
    mapFind m d = none ↔ d ∉ m.map Prod.fst := by
  induction m with
  | nil => simp [mapFind]
  | cons x m ih =>
    obtain ⟨k, v⟩ := x
    simp only [mapFind, List.map_cons, List.mem_cons]
    by_cases hk : k = d
    · simp [hk]
    · have : ¬ d = k := fun h => hk h.symm
      simp [hk, this, ih]

theorem keys_mapSet (m : SlotMap) (d : Nat) (q : SlotQueue) :
    (mapSet m d q).map Prod.fst =
      if d ∈ m.map Prod.fst then m.map Prod.fst else m.map Prod.fst ++ [d] := by
  induction m with
  | nil => simp [mapSet]
  | cons x m ih =>
    obtain ⟨k, v⟩ := x
    simp only [mapSet]
    by_cases hk : k = d
    · subst hk; simp
    · have : ¬ d = k := fun h => hk h.symm
      simp only [hk, if_false, List.map_cons, ih, List.mem_cons, this, false_or]
      split <;> simp

theorem nodup_keys_mapSet {m : SlotMap} (h : (m.map Prod.fst).Nodup) (d : Nat) (q : SlotQueue) :
    ((mapSet m d q).map Prod.fst).Nodup := by
  rw [keys_mapSet]
  split
  · exact h
  next hd =>
    rw [List.nodup_append]
    refine ⟨h, List.nodup_singleton d, ?_⟩
    intro a ha hb
    simp at hb
    subst hb
    exact hd ha

theorem sum_mapSet (m : SlotMap) (d : Nat) (q : SlotQueue) :
    ((mapSet m d q).map (fun e => e.2.length)).sum + (mapAt m d).length =
      (m.map (fun e => e.2.length)).sum + q.length := by
  induction m with
  | nil => simp [mapSet, mapAt, mapFind]
  | cons x m ih =>
    obtain ⟨k, v⟩ := x
    by_cases hk : k = d
    · subst hk
      simp [mapSet, mapAt, mapFind]
      omega
    · have e1 : mapAt ((k, v) :: m) d = mapAt m d := by simp [mapAt, mapFind, hk]
      rw [e1]
      simp only [mapSet, hk, if_false, List.map_cons, List.sum_cons]
      omega

theorem mem_iff_mapFind {m : SlotMap} (h : (m.map Prod.fst).Nodup) (d : Nat) (q : SlotQueue) :
    (d, q) ∈ m ↔ mapFind m d = some q := by
  induction m with
  | nil => simp [mapFind]
  | cons x m ih =>
    obtain ⟨k, v⟩ := x
    simp only [List.map_cons, List.nodup_cons] at h
    simp only [List.mem_cons, mapFind, Prod.mk.injEq]
    by_cases hk : k = d
    · subst hk
      simp only [if_true, Option.some.injEq]
      constructor
      · rintro (h1 | hm)
        · exact h1.2.symm
        · exact absurd (List.mem_map_of_mem Prod.fst hm) h.1
      · intro hv; exact Or.inl (by simp [hv])
    · have : ¬ d = k := fun h => hk h.symm
      simp [hk, this, ih h.2]

theorem mapAt_of_count_zero {m : SlotMap} {d : Nat} (h : mapCount m d = 0) : mapAt m d = [] := by
  unfold mapCount at h
  unfold mapAt
  cases hf : mapFind m d with
  | none => rfl
  | some q => simp [hf] at h

/-! ## The registry -/

theorem getElem_setBooked (slots : List TimeSlot) (p : Nat) (v : Bool) (i : Nat) :
    (setBooked slots p v)[i]? =
      (slots[i]?).map (fun slot => if p = i then { slot with is_booked_ := v } else slot) := by
  unfold setBooked
  rw [List.getElem?_modify]
  rfl

theorem length_setBooked (slots : List TimeSlot) (p : Nat) (v : Bool) :
    (setBooked slots p v).length = slots.length := by
  simp [setBooked]

theorem deref_eq_of_getElem {slots : List TimeSlot} {p : Nat} {slot : TimeSlot}
    (h : slots[p]? = some slot) : deref slots p = slot := by
  simp [deref, List.getD, h]

theorem slotKey_setBooked (slots : List TimeSlot) (p : Nat) (v : Bool) :
    slotKey (setBooked slots p v) = slotKey slots := by
  funext i
  unfold slotKey deref
  simp only [List.getD_eq_getElem?_getD, getElem_setBooked]
  cases slots[i]? with
  | none => rfl
  | some slot => by_cases h : p = i <;> simp [h]

theorem slotKey_append {slots : List TimeSlot} {p : Nat} (h : p < slots.length)
    (l : List TimeSlot) : slotKey (slots ++ l) p = slotKey slots p := by
  unfold slotKey deref
  simp only [List.getD_eq_getElem?_getD]
  rw [List.getElem?_append_left h]

theorem comparator_iff (slots : List TimeSlot) (a b : Nat) :
    TimeSlotComparator slots a b = true ↔ slotKey slots b < slotKey slots a := by
  unfold TimeSlotComparator TimeSlot.gt slotKey
  rw [Prod.Lex.lt_iff]
  simp

theorem PriorityQueue.IsHeap.congr {α K : Type} [LinearOrder K] {key key2 : α → K}
    {xs : List α} (h : PriorityQueue.IsHeap key xs) (hk : ∀ x ∈ xs, key x = key2 x) :
    PriorityQueue.IsHeap key2 xs := by
  intro j a b hj ha hb
  rw [← hk a (List.getElem?_mem ha), ← hk b (List.getElem?_mem hb)]
  exact h j a b hj ha hb

theorem getElem_snoc (slots : List TimeSlot) (x : TimeSlot) (i : Nat) :
    (slots ++ [x])[i]? = if i < slots.length then slots[i]? else
      if i = slots.length then some x else none := by
  rw [List.getElem?_append]
  split
  · rfl
  next h =>
    split
    next h2 => subst h2; simp
    next h2 =>
      have : 0 < i - slots.length := by omega
      rw [List.getElem?_eq_none]
      simp; omega

theorem free_lt {slots : List TimeSlot} {d p : Nat} (h : Free slots d p) : p < slots.length := by
  obtain ⟨slot, hs, _⟩ := h
  exact PriorityQueue.lt_length_of_getElem hs

theorem booked_lt {slots : List TimeSlot} {p : Nat} (h : Booked slots p) : p < slots.length := by
  obtain ⟨slot, hs, _⟩ := h
  exact PriorityQueue.lt_length_of_getElem hs

theorem free_snoc (slots : List TimeSlot) (x : TimeSlot) (d i : Nat) :
    Free (slots ++ [x]) d i ↔
      Free slots d i ∨ (i = slots.length ∧ x.date_ = d ∧ x.is_booked_ = false) := by
  unfold Free
  rw [getElem_snoc]
  constructor
  · rintro ⟨slot, hs, hd, hb⟩
    split at hs
    · exact Or.inl ⟨slot, hs, hd, hb⟩
    · split at hs
      next h2 => cases hs; exact Or.inr ⟨h2, hd, hb⟩
      · cases hs
  · rintro (⟨slot, hs, hd, hb⟩ | ⟨hi, hd, hb⟩)
    · exact ⟨slot, by rw [if_pos (PriorityQueue.lt_length_of_getElem hs)]; exact hs, hd, hb⟩
    · exact ⟨x, by rw [if_neg (by omega), if_pos hi], hd, hb⟩

theorem booked_snoc (slots : List TimeSlot) (x : TimeSlot) (i : Nat) :
    Booked (slots ++ [x]) i ↔ Booked slots i ∨ (i = slots.length ∧ x.is_booked_ = true) := by
  unfold Booked
  rw [getElem_snoc]
  constructor
  · rintro ⟨slot, hs, hb⟩
    split at hs
    · exact Or.inl ⟨slot, hs, hb⟩
    · split at hs
      next h2 => cases hs; exact Or.inr ⟨h2, hb⟩
      · cases hs
  · rintro (⟨slot, hs, hb⟩ | ⟨hi, hb⟩)
    · exact ⟨slot, by rw [if_pos (PriorityQueue.lt_length_of_getElem hs)]; exact hs, hb⟩
    · exact ⟨x, by rw [if_neg (by omega), if_pos hi], hb⟩

theorem free_setBooked_true (slots : List TimeSlot) (p d i : Nat) :
    Free (setBooked slots p true) d i ↔ Free slots d i ∧ i ≠ p := by
  unfold Free
  simp only [getElem_setBooked]
  constructor
  · rintro ⟨slot, hs, hd, hb⟩
    cases h0 : slots[i]? with
    | none => simp [h0] at hs
    | some s0 =>
      simp only [h0, Option.map_some', Option.some.injEq] at hs
      by_cases hpi : p = i
      · simp only [hpi, if_true] at hs
        subst hs
        simp at hb
      · simp only [hpi, if_false] at hs
        subst hs
        exact ⟨⟨s0, rfl, hd, hb⟩, fun h => hpi h.symm⟩
  · rintro ⟨⟨slot, hs, hd, hb⟩, hne⟩
    have : ¬ p = i := fun h => hne h.symm
    exact ⟨slot, by simp [hs, this], hd, hb⟩

theorem free_setBooked_false (slots : List TimeSlot) (p d i : Nat) :
    Free (setBooked slots p false) d i ↔
      Free slots d i ∨ (i = p ∧ ∃ slot, slots[p]? = some slot ∧ slot.date_ = d) := by
  unfold Free
  simp only [getElem_setBooked]
  constructor
  · rintro ⟨slot, hs, hd, hb⟩
    cases h0 : slots[i]? with
    | none => simp [h0] at hs
    | some s0 =>
      simp only [h0, Option.map_some', Option.some.injEq] at hs
      by_cases hpi : p = i
      · simp only [hpi, if_true] at hs
        subst hs
        subst hpi
        exact Or.inr ⟨rfl, s0, h0, hd⟩
      · simp only [hpi, if_false] at hs
        subst hs
        exact Or.inl ⟨s0, rfl, hd, hb⟩
  · rintro (⟨slot, hs, hd, hb⟩ | ⟨hi, slot, hs, hd⟩)
    · by_cases hpi : p = i
      · exact ⟨{ slot with is_booked_ := false }, by simp [hs, hpi], hd, rfl⟩
      · exact ⟨slot, by simp [hs, hpi], hd, hb⟩
    · subst hi
      exact ⟨{ slot with is_booked_ := false }, by simp [hs], hd, rfl⟩

theorem booked_setBooked_true (slots : List TimeSlot) (p i : Nat) :
    Booked (setBooked slots p true) i ↔ Booked slots i ∨ (i = p ∧ p < slots.length) := by
  unfold Booked
  simp only [getElem_setBooked]
  constructor
  · rintro ⟨slot, hs, hb⟩
    cases h0 : slots[i]? with
    | none => simp [h0] at hs
    | some s0 =>
      simp only [h0, Option.map_some', Option.some.injEq] at hs
      by_cases hpi : p = i
      · subst hpi
        exact Or.inr ⟨rfl, PriorityQueue.lt_length_of_getElem h0⟩
      · simp only [hpi, if_false] at hs
        subst hs
        exact Or.inl ⟨s0, rfl, hb⟩
  · rintro (⟨slot, hs, hb⟩ | ⟨hi, hlt⟩)
    · by_cases hpi : p = i
      · exact ⟨{ slot with is_booked_ := true }, by simp [hs, hpi], rfl⟩
      · exact ⟨slot, by simp [hs, hpi], hb⟩
    · subst hi
      exact ⟨{ slots[i] with is_booked_ := true },
        by simp [List.getElem?_eq_getElem hlt], rfl⟩

theorem booked_setBooked_false (slots : List TimeSlot) (p i : Nat) :
    Booked (setBooked slots p false) i ↔ Booked slots i ∧ i ≠ p := by
  unfold Booked
  simp only [getElem_setBooked]
  constructor
  · rintro ⟨slot, hs, hb⟩
    cases h0 : slots[i]? with
    | none => simp [h0] at hs
    | some s0 =>
      simp only [h0, Option.map_some', Option.some.injEq] at hs
      by_cases hpi : p = i
      · simp only [hpi, if_true] at hs
        subst hs
        simp at hb
      · simp only [hpi, if_false] at hs
        subst hs
        exact ⟨⟨s0, rfl, hb⟩, fun h => hpi h.symm⟩
  · rintro ⟨⟨slot, hs, hb⟩, hne⟩
    have : ¬ p = i := fun h => hne h.symm
    exact ⟨slot, by simp [hs, this], hb⟩

theorem not_free_and_booked {slots : List TimeSlot} {d p : Nat} (h1 : Free slots d p)
    (h2 : Booked slots p) : False := by
  obtain ⟨a, ha, _, hfa⟩ := h1
  obtain ⟨b, hb, hbb⟩ := h2
  rw [ha] at hb
  cases hb
  rw [hfa] at hbb
  cases hbb

theorem inv_init : Inv init := by
  refine ⟨?_, rfl, ?_, ?_, ?_, ?_, ?_, ?_, ?_, rfl⟩
  · intro i slot h; simp [init] at h
  · intro i j a b h; simp [init] at h
  · simp [init]
  · intro d; exact PriorityQueue.isHeap_nil _
  · intro d; simp [init, mapAt, mapFind]
  · intro d p
    simp [init, mapAt, mapFind, Free]
  · simp [init]
  · intro p; simp [init, Booked]

theorem inv_createSlot {s : State} (h : Inv s) (d t : Nat)
    (hfresh : ∀ slot ∈ s.all_slots_, ¬ (slot.date_ = d ∧ slot.time_ = t)) :
    Inv (createSlot s d t) := by
  have hkey : ∀ e, ∀ x ∈ mapAt s.slotsByDate_ e,
      slotKey s.all_slots_ x = slotKey (s.all_slots_ ++ [⟨s.next_slot_id_, t, d, false⟩]) x := by
    intro e x hx
    exact (slotKey_append (free_lt ((h.pool e x).1 hx)) _).symm
  have hperm := PriorityQueue.push_perm
    (TimeSlotComparator (s.all_slots_ ++ [⟨s.next_slot_id_, t, d, false⟩]))
    (mapAt s.slotsByDate_ d) s.all_slots_.length
  refine ⟨?_, ?_, ?_, ?_, ?_, ?_, ?_, ?_, ?_, ?_⟩
  · intro i slot hi
    simp only [createSlot, getElem_snoc] at hi
    split at hi
    · exact h.ids i slot hi
    · split at hi
      next h2 => cases hi; simp [h.next, h2]
      · cases hi
  · simp [createSlot, h.next]
  · intro i j a b hi hj hd ht
    simp only [createSlot, getElem_snoc] at hi hj
    split at hi
    · split at hj
      · exact h.distinct i j a b hi hj hd ht
      · split at hj
        · cases hj
          exact (hfresh a (List.getElem?_mem hi) ⟨hd, ht⟩).elim
        · cases hj
    · split at hi
      next hi2 =>
        cases hi
        split at hj
        · exact (hfresh b (List.getElem?_mem hj) ⟨hd.symm, ht.symm⟩).elim
        · split at hj
          next hj2 => omega
          · cases hj
      · cases hi
  · exact nodup_keys_mapSet h.keys _ _
  · intro e
    simp only [createSlot, mapAt_mapSet]
    split
    next he =>
      subst he
      exact PriorityQueue.push_isHeap (comparator_iff _) ((h.heap e).congr (hkey e)) _
    · exact (h.heap e).congr (hkey e)
  · intro e
    simp only [createSlot, mapAt_mapSet]
    split
    next he =>
      subst he
      rw [hperm.nodup_iff, List.nodup_cons]
      refine ⟨fun hm => ?_, h.nodup e⟩
      have := free_lt ((h.pool e _).1 hm)
      omega
    · exact h.nodup e
  · intro e p
    simp only [createSlot, mapAt_mapSet, free_snoc]
    split
    next he =>
      subst he
      rw [hperm.mem_iff, List.mem_cons, h.pool]
      constructor
      · rintro (hp | hp)
        · exact Or.inr ⟨hp, by simp⟩
        · exact Or.inl hp
      · rintro (hp | ⟨hp, _⟩)
        · exact Or.inr hp
        · exact Or.inl hp
    next he =>
      rw [h.pool]
      constructor
      · intro hp; exact Or.inl hp
      · rintro (hp | ⟨_, hd, _⟩)
        · exact hp
        · exact (he hd.symm).elim
  · exact h.ledger_nodup
  · intro p
    simp only [createSlot, booked_snoc]
    rw [h.ledger]
    constructor
    · intro hp; exact Or.inl hp
    · rintro (hp | ⟨_, hb⟩)
      · exact hp
      · cases hb
  · have hs := sum_mapSet s.slotsByDate_ d
      (PriorityQueue.push (TimeSlotComparator (s.all_slots_ ++ [⟨s.next_slot_id_, t, d, false⟩]))
        (mapAt s.slotsByDate_ d) s.all_slots_.length)
    have hl : (PriorityQueue.push
        (TimeSlotComparator (s.all_slots_ ++ [⟨s.next_slot_id_, t, d, false⟩]))
        (mapAt s.slotsByDate_ d) s.all_slots_.length).length =
        (mapAt s.slotsByDate_ d).length + 1 := by
      simpa using hperm.length_eq
    have hc := h.conservation
    show (s.all_slots_ ++ [(⟨s.next_slot_id_, t, d, false⟩ : TimeSlot)]).length =
      _ + s.patient_bookings_.length
    have e1 : (createSlot s d t).slotsByDate_ = mapSet s.slotsByDate_ d
        (PriorityQueue.push
          (TimeSlotComparator (s.all_slots_ ++ [⟨s.next_slot_id_, t, d, false⟩]))
          (mapAt s.slotsByDate_ d) s.all_slots_.length) := rfl
    have e2 : (createSlot s d t).patient_bookings_ = s.patient_bookings_ := rfl
    rw [List.length_append, List.length_singleton, e1]
    omega

/-! ## The loops of `bookSlot` -/

theorem PriorityQueue.foldl_push_spec {α K : Type} [LinearOrder K] {key : α → K}
    {comp : α → α → Bool} (hc : ∀ a b, comp a b = true ↔ key b < key a) :
    ∀ (l q0 : List α), PriorityQueue.IsHeap key q0 →
      PriorityQueue.IsHeap key (l.foldl (PriorityQueue.push comp) q0) ∧
        (l.foldl (PriorityQueue.push comp) q0).Perm (q0 ++ l)
  | [], q0, h => by simpa using h
  | x :: l, q0, h => by
    obtain ⟨h1, h2⟩ := PriorityQueue.foldl_push_spec hc l _ (PriorityQueue.push_isHeap hc h x)
    refine ⟨h1, h2.trans ?_⟩
    have := (PriorityQueue.push_perm comp q0 x).append_right l
    refine this.trans ?_
    simp only [List.cons_append]
    exact List.perm_middle.symm

theorem getLast_cons_filter (x : Nat) (F : List Nat) (sel : Option Nat) :
    (match (x :: F).getLast? with | some p => some p | none => sel) =
      (match F.getLast? with | some p => some p | none => some x) := by
  cases F with
  | nil => rfl
  | cons y F =>
    rw [List.getLast?_cons_cons]
    cases h : (y :: F).getLast? with
    | none => simp at h
    | some p => rfl

theorem drain_eq (comp : Nat → Nat → Bool) (slots : List TimeSlot) (id : Nat) :
    ∀ (fuel : Nat) (q : SlotQueue) (temp : List Nat) (sel : Option Nat), q.length ≤ fuel →
      drain comp slots id fuel q temp sel =
        ([], temp ++ (PriorityQueue.popLoop comp fuel q).filter (fun p => !isTarget slots id p),
          match ((PriorityQueue.popLoop comp fuel q).filter (isTarget slots id)).getLast? with
          | some p => some p
          | none => sel)
  | 0, q, temp, sel, hlen => by
    have : q = [] := List.eq_nil_of_length_eq_zero (by omega)
    subst this
    simp [drain, PriorityQueue.popLoop]
  | fuel + 1, q, temp, sel, hlen => by
    unfold drain PriorityQueue.popLoop
    cases ht : PriorityQueue.top q with
    | none =>
      have : q = [] := by simpa [PriorityQueue.top] using ht
      subst this
      simp
    | some x =>
      have hl := PriorityQueue.pop_length comp ht
      simp only
      by_cases hx : isTarget slots id x = true
      · have hx2 : ((deref slots x).id_ == id && !(deref slots x).is_booked_) = true := hx
        rw [if_pos hx2, drain_eq comp slots id fuel _ _ _ (by omega)]
        simp only [List.filter_cons, hx, Bool.not_true, if_true]
        rw [getLast_cons_filter]
        simp
      · have hx2 : ¬ ((deref slots x).id_ == id && !(deref slots x).is_booked_) = true := hx
        rw [if_neg hx2, drain_eq comp slots id fuel _ _ _ (by omega)]
        simp only [Bool.not_eq_true] at hx
        simp [List.filter_cons, hx]

/-! ## The listing of a date -/

theorem listAvailable_eq (s : State) (d : Nat) :
    listAvailable s d = (available s d).map (deref s.all_slots_) := by
  unfold listAvailable updateAvailableSlotsForSelectedDate available
  split
  · rfl
  next hc =>
    have : mapAt s.slotsByDate_ d = [] := by
      by_cases h0 : mapCount s.slotsByDate_ d = 0
      · exact mapAt_of_count_zero h0
      · simpa [h0] using hc
    rw [this]
    rfl

theorem available_perm {s : State} (h : Inv s) (d : Nat) :
    (available s d).Perm (mapAt s.slotsByDate_ d) :=
  (PriorityQueue.popLoop_spec (comparator_iff s.all_slots_) _ _ (le_refl _) (h.heap d)).1

theorem available_sorted {s : State} (h : Inv s) (d : Nat) :
    (available s d).Sorted (fun a b => slotKey s.all_slots_ a ≤ slotKey s.all_slots_ b) :=
  (PriorityQueue.popLoop_spec (comparator_iff s.all_slots_) _ _ (le_refl _) (h.heap d)).2

theorem mem_available {s : State} (h : Inv s) (d p : Nat) :
    p ∈ available s d ↔ Free s.all_slots_ d p := by
  rw [(available_perm h d).mem_iff, h.pool]

theorem nodup_available {s : State} (h : Inv s) (d : Nat) : (available s d).Nodup :=
  (available_perm h d).nodup_iff.2 (h.nodup d)

theorem slotKey_inj {s : State} (h : Inv s) {d a b : Nat} (ha : Free s.all_slots_ d a)
    (hb : Free s.all_slots_ d b) (hk : slotKey s.all_slots_ a = slotKey s.all_slots_ b) :
    a = b := by
  obtain ⟨sa, hsa, hda, _⟩ := ha
  obtain ⟨sb, hsb, hdb, _⟩ := hb
  unfold slotKey at hk
  rw [deref_eq_of_getElem hsa, deref_eq_of_getElem hsb] at hk
  have hk2 : (sa.date_, sa.time_) = (sb.date_, sb.time_) := toLex.injective hk
  simp only [Prod.mk.injEq] at hk2
  exact h.distinct a b sa sb hsa hsb hk2.1 hk2.2

theorem sorted_unique {slots : List TimeSlot} {l1 l2 : List Nat}
    (hinj : ∀ a ∈ l1, ∀ b ∈ l1, slotKey slots a = slotKey slots b → a = b)
    (hp : l1.Perm l2)
    (h1 : l1.Sorted (fun a b => slotKey slots a ≤ slotKey slots b))
    (h2 : l2.Sorted (fun a b => slotKey slots a ≤ slotKey slots b)) : l1 = l2 := by
  refine List.Perm.eq_of_sorted ?_ h1 h2 hp
  intro a b ha hb hab hba
  exact hinj a ha b (hp.symm.subset hb) (le_antisymm hab hba)

theorem available_unique {s : State} (h : Inv s) (d : Nat) {l : List Nat}
    (hp : l.Perm (mapAt s.slotsByDate_ d))
    (hs : l.Sorted (fun a b => slotKey s.all_slots_ a ≤ slotKey s.all_slots_ b)) :
    l = available s d := by
  refine sorted_unique ?_ (hp.trans (available_perm h d).symm) hs (available_sorted h d)
  intro a ha b hb hk
  exact slotKey_inj h ((h.pool d a).1 (hp.subset ha)) ((h.pool d b).1 (hp.subset hb)) hk

theorem isTarget_iff {s : State} (h : Inv s) {d p x : Nat} (hp : Free s.all_slots_ d p)
    (hx : Free s.all_slots_ d x) :
    isTarget s.all_slots_ (deref s.all_slots_ p).id_ x = true ↔ x = p := by
  obtain ⟨sp, hsp, _, _⟩ := hp
  obtain ⟨sx, hsx, _, hbx⟩ := hx
  unfold isTarget
  rw [deref_eq_of_getElem hsp, deref_eq_of_getElem hsx, h.ids p sp hsp, h.ids x sx hsx, hbx]
  simp

theorem filter_target_of_mem {s : State} (h : Inv s) {d p : Nat}
    (hp : p ∈ mapAt s.slotsByDate_ d) :
    (available s d).filter (isTarget s.all_slots_ (deref s.all_slots_ p).id_) = [p] ∧
      (available s d).filter (fun x => !isTarget s.all_slots_ (deref s.all_slots_ p).id_ x) =
        (available s d).erase p := by
  have hpf := (h.pool d p).1 hp
  have hpa : p ∈ available s d := (mem_available h d p).2 hpf
  constructor
  · have e : (available s d).filter (isTarget s.all_slots_ (deref s.all_slots_ p).id_) =
        (available s d).filter (fun x => x == p) := by
      apply List.filter_congr
      intro x hx
      have := isTarget_iff h hpf ((mem_available h d x).1 hx)
      by_cases hxp : x = p
      · have h4 := this.2 hxp
        subst hxp
        simp [h4]
      · have h3 : isTarget s.all_slots_ (deref s.all_slots_ p).id_ x = false := by
          simpa using mt this.1 hxp
        simp [h3, hxp]
    rw [e, List.filter_beq, List.count_eq_one_of_mem (nodup_available h d) hpa]
    rfl
  · rw [(nodup_available h d).erase_eq_filter]
    apply List.filter_congr
    intro x hx
    have := isTarget_iff h hpf ((mem_available h d x).1 hx)
    by_cases hxp : x = p
    · have h4 := this.2 hxp
      subst hxp
      simp [h4]
    · have h3 : isTarget s.all_slots_ (deref s.all_slots_ p).id_ x = false := by
        simpa using mt this.1 hxp
      simp [h3, hxp]

theorem filter_target_of_absent {s : State} (h : Inv s) {d id : Nat}
    (hno : ∀ p ∈ mapAt s.slotsByDate_ d, (deref s.all_slots_ p).id_ ≠ id) :
    (available s d).filter (isTarget s.all_slots_ id) = [] ∧
      (available s d).filter (fun x => !isTarget s.all_slots_ id x) = available s d := by
  have hall : ∀ x ∈ available s d, isTarget s.all_slots_ id x = false := by
    intro x hx
    have := hno x ((available_perm h d).subset hx)
    simp [isTarget, this]
  constructor
  · rw [List.filter_eq_nil_iff]
    intro x hx
    simp [hall x hx]
  · rw [List.filter_eq_self]
    intro x hx
    simp [hall x hx]

theorem pool_check_false {m : SlotMap} {d : Nat} (hne : mapAt m d ≠ []) :
    ¬ ((mapCount m d == 0 || (mapAt m d).isEmpty) = true) := by
  have h0 : mapCount m d ≠ 0 := fun h0 => hne (mapAt_of_count_zero h0)
  simp [h0, List.isEmpty_iff, hne]

theorem bookSlot_ok {s : State} (h : Inv s) {d p : Nat} (hp : p ∈ mapAt s.slotsByDate_ d)
    (name : String) (age : Int) (now : Nat) (hname : name.isEmpty = false) :
    bookSlot s d (some (deref s.all_slots_ p).id_) name age now =
      (.bookingConfirmed p,
        { s with
          slotsByDate_ := mapSet s.slotsByDate_ d
            (((available s d).erase p).foldl
              (PriorityQueue.push (TimeSlotComparator s.all_slots_)) [])
          all_slots_ := setBooked s.all_slots_ p true
          patient_bookings_ := s.patient_bookings_ ++ [⟨name, age, p, now⟩] }) := by
  have hne : mapAt s.slotsByDate_ d ≠ [] := List.ne_nil_of_mem hp
  obtain ⟨f1, f2⟩ := filter_target_of_mem h hp
  unfold available at f1 f2
  unfold bookSlot
  rw [if_neg (by simp [hname]), if_neg (pool_check_false hne)]
  simp only [drain_eq _ _ _ _ _ _ _ (le_refl _), List.nil_append, f1, f2, List.getLast?_singleton]
  rfl

theorem bookSlot_absent {s : State} (h : Inv s) {d id : Nat}
    (hne : mapAt s.slotsByDate_ d ≠ [])
    (hno : ∀ p ∈ mapAt s.slotsByDate_ d, (deref s.all_slots_ p).id_ ≠ id)
    (name : String) (age : Int) (now : Nat) (hname : name.isEmpty = false) :
    bookSlot s d (some id) name age now =
      (.slotError,
        { s with
          slotsByDate_ := mapSet s.slotsByDate_ d
            ((available s d).foldl (PriorityQueue.push (TimeSlotComparator s.all_slots_)) []) }) := by
  obtain ⟨f1, f2⟩ := filter_target_of_absent h hno
  unfold available at f1 f2
  unfold bookSlot
  rw [if_neg (by simp [hname]), if_neg (pool_check_false hne)]
  simp only [drain_eq _ _ _ _ _ _ _ (le_refl _), List.nil_append, f1, f2, List.getLast?_nil]
  rfl

/-! ## Preservation of the invariant -/

theorem inv_replace_pool {s : State} (h : Inv s) (d : Nat) {q : SlotQueue}
    (hp : q.Perm (mapAt s.slotsByDate_ d))
    (hh : PriorityQueue.IsHeap (slotKey s.all_slots_) q) :
    Inv { s with slotsByDate_ := mapSet s.slotsByDate_ d q } := by
  refine ⟨h.ids, h.next, h.distinct, nodup_keys_mapSet h.keys _ _, ?_, ?_, ?_, h.ledger_nodup,
    h.ledger, ?_⟩
  · intro e
    show PriorityQueue.IsHeap (slotKey s.all_slots_) (mapAt (mapSet s.slotsByDate_ d q) e)
    rw [mapAt_mapSet]
    split
    · exact hh
    · exact h.heap e
  · intro e
    show (mapAt (mapSet s.slotsByDate_ d q) e).Nodup
    rw [mapAt_mapSet]
    split
    · exact hp.nodup_iff.2 (h.nodup d)
    · exact h.nodup e
  · intro e p
    show p ∈ mapAt (mapSet s.slotsByDate_ d q) e ↔ Free s.all_slots_ e p
    rw [mapAt_mapSet]
    split
    next he => subst he; rw [hp.mem_iff]; exact h.pool e p
    · exact h.pool e p
  · show s.all_slots_.length =
      ((mapSet s.slotsByDate_ d q).map (fun e => e.2.length)).sum + s.patient_bookings_.length
    have h1 := sum_mapSet s.slotsByDate_ d q
    have h2 := hp.length_eq
    have h3 := h.conservation
    omega

theorem inv_book {s : State} (h : Inv s) {d p : Nat} (hp : p ∈ mapAt s.slotsByDate_ d)
    {q : SlotQueue} (hq : q.Perm ((mapAt s.slotsByDate_ d).erase p))
    (hh : PriorityQueue.IsHeap (slotKey s.all_slots_) q) (b : Patient)
    (hb : b.assigned_slot_ = p) :
    Inv { s with
      slotsByDate_ := mapSet s.slotsByDate_ d q
      all_slots_ := setBooked s.all_slots_ p true
      patient_bookings_ := s.patient_bookings_ ++ [b] } := by
  have hpf : Free s.all_slots_ d p := (h.pool d p).1 hp
  have hnb : p ∉ s.patient_bookings_.map (fun b => b.assigned_slot_) := fun hm =>
    not_free_and_booked hpf ((h.ledger p).1 hm)
  refine ⟨?_, ?_, ?_, nodup_keys_mapSet h.keys _ _, ?_, ?_, ?_, ?_, ?_, ?_⟩
  · intro i slot hi
    simp only [getElem_setBooked] at hi
    cases h0 : s.all_slots_[i]? with
    | none => simp [h0] at hi
    | some s0 =>
      simp only [h0, Option.map_some', Option.some.injEq] at hi
      have := h.ids i s0 h0
      subst hi
      split <;> exact this
  · show s.next_slot_id_ = (setBooked s.all_slots_ p true).length + 1
    rw [length_setBooked]; exact h.next
  · intro i j a c hi hj hd ht
    simp only [getElem_setBooked] at hi hj
    cases hi0 : s.all_slots_[i]? with
    | none => simp [hi0] at hi
    | some a0 =>
      cases hj0 : s.all_slots_[j]? with
      | none => simp [hj0] at hj
      | some c0 =>
        simp only [hi0, hj0, Option.map_some', Option.some.injEq] at hi hj
        refine h.distinct i j a0 c0 hi0 hj0 ?_ ?_
        · subst hi; subst hj
          revert hd; split <;> split <;> exact id
        · subst hi; subst hj
          revert ht; split <;> split <;> exact id
  · intro e
    show PriorityQueue.IsHeap (slotKey (setBooked s.all_slots_ p true))
      (mapAt (mapSet s.slotsByDate_ d q) e)
    rw [slotKey_setBooked, mapAt_mapSet]
    split
    · exact hh
    · exact h.heap e
  · intro e
    show (mapAt (mapSet s.slotsByDate_ d q) e).Nodup
    rw [mapAt_mapSet]
    split
    · exact hq.nodup_iff.2 ((h.nodup d).erase p)
    · exact h.nodup e
  · intro e x
    show x ∈ mapAt (mapSet s.slotsByDate_ d q) e ↔ Free (setBooked s.all_slots_ p true) e x
    rw [mapAt_mapSet, free_setBooked_true]
    split
    next he =>
      subst he
      rw [hq.mem_iff, (h.nodup e).mem_erase_iff, h.pool, and_comm]
    next he =>
      rw [h.pool]
      constructor
      · intro hx
        refine ⟨hx, ?_⟩
        rintro rfl
        obtain ⟨a, ha, hda, _⟩ := hx
        obtain ⟨c, hc, hdc, _⟩ := hpf
        rw [ha] at hc; cases hc
        exact he (hda.symm.trans hdc)
      · exact fun hx => hx.1
  · show ((s.patient_bookings_ ++ [b]).map (fun b => b.assigned_slot_)).Nodup
    rw [List.map_append, List.nodup_append]
    refine ⟨h.ledger_nodup, by simp, ?_⟩
    intro a ha hb2
    simp only [List.map_cons, List.map_nil, List.mem_singleton] at hb2
    rw [hb2, hb] at ha
    exact hnb ha
  · intro x
    show x ∈ (s.patient_bookings_ ++ [b]).map (fun b => b.assigned_slot_) ↔
      Booked (setBooked s.all_slots_ p true) x
    rw [booked_setBooked_true, List.map_append, List.mem_append, h.ledger]
    simp only [List.map_cons, List.map_nil, List.mem_singleton, hb]
    constructor
    · rintro (hx | hx)
      · exact Or.inl hx
      · exact Or.inr ⟨hx, free_lt hpf⟩
    · rintro (hx | hx)
      · exact Or.inl hx
      · exact Or.inr hx.1
  · show (setBooked s.all_slots_ p true).length =
      ((mapSet s.slotsByDate_ d q).map (fun e => e.2.length)).sum +
        (s.patient_bookings_ ++ [b]).length
    have h1 := sum_mapSet s.slotsByDate_ d q
    have h2 := hq.length_eq
    rw [List.length_erase_of_mem hp] at h2
    have h3 := h.conservation
    have h4 : 0 < (mapAt s.slotsByDate_ d).length := List.length_pos_of_mem hp
    rw [length_setBooked, List.length_append, List.length_singleton]
    omega

theorem map_eraseIdx {α β : Type} (f : α → β) : ∀ (l : List α) (i : Nat),
    (l.eraseIdx i).map f = (l.map f).eraseIdx i
  | [], _ => rfl
  | _ :: _, 0 => rfl
  | a :: l, i + 1 => by
    simp only [List.eraseIdx_cons_succ, List.map_cons, map_eraseIdx f l i]

theorem ledger_eraseIdx {s : State} (h : Inv s) {index : Nat} {b : Patient}
    (hb : s.patient_bookings_[index]? = some b) :
    (s.patient_bookings_.eraseIdx index).map (fun b => b.assigned_slot_) =
      (s.patient_bookings_.map (fun b => b.assigned_slot_)).erase b.assigned_slot_ := by
  have hlt := PriorityQueue.lt_length_of_getElem hb
  have hlt2 : index < (s.patient_bookings_.map (fun b => b.assigned_slot_)).length := by
    simpa using hlt
  have hget : (s.patient_bookings_.map (fun b => b.assigned_slot_))[index] = b.assigned_slot_ := by
    have : s.patient_bookings_[index] = b := by
      rw [List.getElem?_eq_getElem hlt] at hb
      exact Option.some.inj hb
    simp [this]
  rw [map_eraseIdx, ← hget, h.ledger_nodup.erase_getElem index hlt2]

theorem inv_cancel {s : State} (h : Inv s) {index : Nat} {b : Patient}
    (hb : s.patient_bookings_[index]? = some b) :
    Inv { s with
      all_slots_ := setBooked s.all_slots_ b.assigned_slot_ false
      slotsByDate_ := mapSet s.slotsByDate_
        (deref (setBooked s.all_slots_ b.assigned_slot_ false) b.assigned_slot_).date_
        (PriorityQueue.push
          (TimeSlotComparator (setBooked s.all_slots_ b.assigned_slot_ false))
          (mapAt s.slotsByDate_
            (deref (setBooked s.all_slots_ b.assigned_slot_ false) b.assigned_slot_).date_)
          b.assigned_slot_)
      patient_bookings_ := s.patient_bookings_.eraseIdx index } := by
  generalize hp : b.assigned_slot_ = p at *
  have hmem : p ∈ s.patient_bookings_.map (fun b => b.assigned_slot_) := by
    rw [← hp]
    exact List.mem_map_of_mem _ (List.getElem?_mem hb)
  have hbk : Booked s.all_slots_ p := (h.ledger p).1 hmem
  obtain ⟨sp, hsp, hspb⟩ := hbk
  have hdate : (deref (setBooked s.all_slots_ p false) p).date_ = sp.date_ := by
    have : (setBooked s.all_slots_ p false)[p]? = some { sp with is_booked_ := false } := by
      rw [getElem_setBooked, hsp]; simp
    rw [deref_eq_of_getElem this]
  rw [hdate]
  generalize hd : sp.date_ = d at *
  have hnotin : p ∉ mapAt s.slotsByDate_ d := fun hm =>
    not_free_and_booked ((h.pool d p).1 hm) ⟨sp, hsp, hspb⟩
  have hperm := PriorityQueue.push_perm (TimeSlotComparator (setBooked s.all_slots_ p false))
    (mapAt s.slotsByDate_ d) p
  have hled := ledger_eraseIdx h hb
  rw [hp] at hled
  refine ⟨?_, ?_, ?_, nodup_keys_mapSet h.keys _ _, ?_, ?_, ?_, ?_, ?_, ?_⟩
  · intro i slot hi
    simp only [getElem_setBooked] at hi
    cases h0 : s.all_slots_[i]? with
    | none => simp [h0] at hi
    | some s0 =>
      simp only [h0, Option.map_some', Option.some.injEq] at hi
      have := h.ids i s0 h0
      subst hi
      split <;> exact this
  · show s.next_slot_id_ = (setBooked s.all_slots_ p false).length + 1
    rw [length_setBooked]; exact h.next
  · intro i j a c hi hj hd ht
    simp only [getElem_setBooked] at hi hj
    cases hi0 : s.all_slots_[i]? with
    | none => simp [hi0] at hi
    | some a0 =>
      cases hj0 : s.all_slots_[j]? with
      | none => simp [hj0] at hj
      | some c0 =>
        simp only [hi0, hj0, Option.map_some', Option.some.injEq] at hi hj
        refine h.distinct i j a0 c0 hi0 hj0 ?_ ?_
        · subst hi; subst hj
          revert hd; split <;> split <;> exact id
        · subst hi; subst hj
          revert ht; split <;> split <;> exact id
  · intro e
    show PriorityQueue.IsHeap (slotKey (setBooked s.all_slots_ p false))
      (mapAt (mapSet s.slotsByDate_ d _) e)
    rw [mapAt_mapSet]
    split
    · refine PriorityQueue.push_isHeap (comparator_iff _) ?_ _
      rw [slotKey_setBooked]; exact h.heap d
    · rw [slotKey_setBooked]; exact h.heap e
  · intro e
    show (mapAt (mapSet s.slotsByDate_ d _) e).Nodup
    rw [mapAt_mapSet]
    split
    · rw [hperm.nodup_iff, List.nodup_cons]
      exact ⟨hnotin, h.nodup d⟩
    · exact h.nodup e
  · intro e x
    show x ∈ mapAt (mapSet s.slotsByDate_ d _) e ↔ Free (setBooked s.all_slots_ p false) e x
    rw [mapAt_mapSet, free_setBooked_false]
    split
    next he =>
      subst he
      rw [hperm.mem_iff, List.mem_cons, h.pool]
      constructor
      · rintro (hx | hx)
        · exact Or.inr ⟨hx, sp, hsp, hd⟩
        · exact Or.inl hx
      · rintro (hx | hx)
        · exact Or.inr hx
        · exact Or.inl hx.1
    next he =>
      rw [h.pool]
      constructor
      · exact fun hx => Or.inl hx
      · rintro (hx | ⟨_, slot, hs, hds⟩)
        · exact hx
        · rw [hsp] at hs; cases hs
          exact (he (hds.symm.trans hd)).elim
  · show ((s.patient_bookings_.eraseIdx index).map (fun b => b.assigned_slot_)).Nodup
    rw [hled]
    exact h.ledger_nodup.erase p
  · intro x
    show x ∈ (s.patient_bookings_.eraseIdx index).map (fun b => b.assigned_slot_) ↔
      Booked (setBooked s.all_slots_ p false) x
    rw [hled, h.ledger_nodup.mem_erase_iff, booked_setBooked_false, h.ledger, and_comm]
  · show (setBooked s.all_slots_ p false).length =
      ((mapSet s.slotsByDate_ d _).map (fun e => e.2.length)).sum +
        (s.patient_bookings_.eraseIdx index).length
    have h1 := sum_mapSet s.slotsByDate_ d (PriorityQueue.push
      (TimeSlotComparator (setBooked s.all_slots_ p false)) (mapAt s.slotsByDate_ d) p)
    have h2 := hperm.length_eq
    have h3 := h.conservation
    have h4 := PriorityQueue.lt_length_of_getElem hb
    rw [length_setBooked, List.length_eraseIdx, if_pos h4]
    simp only [List.length_cons] at h2
    omega

theorem cancelSlot_ok (s : State) {index : Nat} {b : Patient}
    (hb : s.patient_bookings_[index]? = some b) :
    cancelSlot s (some index) =
      (.bookingCancelled,
        { s with
          all_slots_ := setBooked s.all_slots_ b.assigned_slot_ false
          slotsByDate_ := mapSet s.slotsByDate_
            (deref (setBooked s.all_slots_ b.assigned_slot_ false) b.assigned_slot_).date_
            (PriorityQueue.push
              (TimeSlotComparator (setBooked s.all_slots_ b.assigned_slot_ false))
              (mapAt s.slotsByDate_
                (deref (setBooked s.all_slots_ b.assigned_slot_ false) b.assigned_slot_).date_)
              b.assigned_slot_)
          patient_bookings_ := s.patient_bookings_.eraseIdx index }) := by
  have hne : s.patient_bookings_.isEmpty = false := by
    cases hl : s.patient_bookings_ with
    | nil => rw [hl] at hb; simp at hb
    | cons x l => rfl
  unfold cancelSlot
  rw [hne]
  simp only [hb]
  rfl

theorem inv_cancelSlot {s : State} (h : Inv s) (choice : Option Nat) :
    Inv (cancelSlot s choice).2 := by
  cases choice with
  | none =>
    unfold cancelSlot
    split <;> exact h
  | some index =>
    cases hb : s.patient_bookings_[index]? with
    | none =>
      unfold cancelSlot
      split
      · exact h
      · simp only [hb]; exact h
    | some b =>
      rw [cancelSlot_ok s hb]
      exact inv_cancel h hb

theorem inv_bookSlot {s : State} (h : Inv s) (d : Nat) (selection : Option Nat) (name : String)
    (age : Int) (now : Nat) : Inv (bookSlot s d selection name age now).2 := by
  by_cases hname : name.isEmpty = true
  · unfold bookSlot; rw [if_pos hname]; exact h
  · have hname2 : name.isEmpty = false := by simpa using hname
    by_cases hq : mapAt s.slotsByDate_ d = []
    · unfold bookSlot
      rw [if_neg hname, if_pos (by simp [hq])]
      exact h
    · cases selection with
      | none =>
        unfold bookSlot
        rw [if_neg hname, if_neg (pool_check_false hq)]
        exact h
      | some id =>
        have hspec := PriorityQueue.foldl_push_spec (comparator_iff s.all_slots_)
        by_cases hex : ∃ p ∈ mapAt s.slotsByDate_ d, (deref s.all_slots_ p).id_ = id
        · obtain ⟨p, hp, hid⟩ := hex
          subst hid
          rw [bookSlot_ok h hp name age now hname2]
          obtain ⟨h1, h2⟩ := hspec ((available s d).erase p) [] (PriorityQueue.isHeap_nil _)
          refine inv_book h hp (h2.trans ?_) h1 _ rfl
          simpa using (available_perm h d).erase p
        · have hno : ∀ p ∈ mapAt s.slotsByDate_ d, (deref s.all_slots_ p).id_ ≠ id :=
            fun p hp hid => hex ⟨p, hp, hid⟩
          rw [bookSlot_absent h hq hno name age now hname2]
          obtain ⟨h1, h2⟩ := hspec (available s d) [] (PriorityQueue.isHeap_nil _)
          refine inv_replace_pool h d (h2.trans ?_) h1
          simpa using available_perm h d

theorem inv_addSlot {s : State} (h : Inv s) (date time : Input) :
    Inv (addSlot s date time).2 := by
  unfold addSlot
  split
  · exact h
  · exact h
  · exact h
  · exact h
  next d t =>
    split
    · exact h
    next hdup =>
      refine inv_createSlot h d t ?_
      intro slot hm hdt
      apply hdup
      rw [List.any_eq_true]
      exact ⟨slot, hm, by simp [hdt.1, hdt.2]⟩

theorem inv_step {s : State} (h : Inv s) (c : Call) : Inv (step s c) := by
  cases c with
  | addSlot date time => exact inv_addSlot h date time
  | bookSlot d sel name age now => exact inv_bookSlot h d sel name age now
  | cancelSlot choice => exact inv_cancelSlot h choice

theorem all_slots_foldl_createSlot : ∀ (l : List (Nat × Nat)) (s : State) (slot : TimeSlot),
    slot ∈ (l.foldl (fun s x => createSlot s x.1 x.2) s).all_slots_ →
      slot ∈ s.all_slots_ ∨ (slot.date_, slot.time_) ∈ l
  | [], s, slot, hm => Or.inl hm
  | x :: l, s, slot, hm => by
    rcases all_slots_foldl_createSlot l _ slot hm with h1 | h1
    · simp only [createSlot, List.mem_append, List.mem_singleton] at h1
      rcases h1 with h1 | h1
      · exact Or.inl h1
      · subst h1; exact Or.inr (List.mem_cons_self _ _)
    · exact Or.inr (List.mem_cons_of_mem _ h1)

theorem inv_foldl_createSlot : ∀ (l : List (Nat × Nat)) (s : State), Inv s → l.Nodup →
    (∀ x ∈ l, ∀ slot ∈ s.all_slots_, ¬ (slot.date_ = x.1 ∧ slot.time_ = x.2)) →
      Inv (l.foldl (fun s x => createSlot s x.1 x.2) s)
  | [], s, h, _, _ => h
  | x :: l, s, h, hnd, hfresh => by
    rw [List.nodup_cons] at hnd
    refine inv_foldl_createSlot l _
      (inv_createSlot h x.1 x.2 (hfresh x (List.mem_cons_self _ _))) hnd.2 ?_
    intro y hy slot hm hdt
    simp only [createSlot, List.mem_append, List.mem_singleton] at hm
    rcases hm with hm | hm
    · exact hfresh y (List.mem_cons_of_mem _ hy) slot hm hdt
    · subst hm
      simp only at hdt
      apply hnd.1
      have : x = y := Prod.ext hdt.1 hdt.2
      rw [this]; exact hy

theorem addSampleSlots_eq (s : State) (today : Nat) :
    addSampleSlots s today =
      (sampleOffsets.map (fun x => (today + x.1, x.2))).foldl
        (fun s x => createSlot s x.1 x.2) s := rfl

theorem nodup_sampleOffsets (today : Nat) :
    (sampleOffsets.map (fun x => (today + x.1, x.2))).Nodup := by
  refine List.Nodup.map ?_ (by decide)
  intro a b hab
  simp only [Prod.mk.injEq] at hab
  exact Prod.ext (by omega) hab.2

theorem inv_seeded (today : Nat) : Inv (seeded today) := by
  unfold seeded
  rw [addSampleSlots_eq]
  refine inv_foldl_createSlot _ _ inv_init (nodup_sampleOffsets today) ?_
  intro x _ slot hm
  simp [init] at hm

theorem inv_of_reachable {s : State} (h : Reachable s) : Inv s := by
  induction h with
  | init => exact inv_init
  | seeded today => exact inv_seeded today
  | step s c _ ih => exact inv_step ih c

theorem reachable_run : ∀ (calls : List Call) (s : State), Reachable s → Reachable (run s calls)
  | [], _, h => h
  | c :: calls, s, h => reachable_run calls (step s c) (Reachable.step s c h)

theorem reachable_demo : Reachable demo := reachable_run _ _ Reachable.init

theorem gt_eq_false_iff (slots : List TimeSlot) (a b : Nat) :
    (deref slots a).gt (deref slots b) = false ↔ slotKey slots a ≤ slotKey slots b := by
  have := comparator_iff slots a b
  unfold TimeSlotComparator at this
  rw [← not_lt, ← this]
  simp

/-! ## Claims -/

/-- C1. In every reachable state the listing of every date is sorted ascending by the
(date, time) timestamp: no slot of the listing is later than a slot listed after it. -/
theorem listAvailable_sorted (s : State) (h : Reachable s) (d : Nat) :
    (listAvailable s d).Sorted (fun a b => a.gt b = false) := by
  rw [listAvailable_eq]
  unfold List.Sorted
  rw [List.pairwise_map]
  refine (available_sorted (inv_of_reachable h) d).imp ?_
  intro a b hab
  exact (gt_eq_false_iff _ a b).2 hab

theorem listAvailable_sorted_witness :
    Reachable demo ∧ (listAvailable demo 15).Sorted (fun a b => a.gt b = false) :=
  ⟨reachable_demo, listAvailable_sorted demo reachable_demo 15⟩

/-- C2. In every reachable state the map has one entry per date, and the pool stored under a
date holds every pointer at most once and holds exactly the pointers of the registry slots
with that date whose booked flag is false. -/
theorem pool_contents (s : State) (h : Reachable s) :
    (∀ d q, (d, q) ∈ s.slotsByDate_ ↔ mapFind s.slotsByDate_ d = some q) ∧
      ∀ d, (mapAt s.slotsByDate_ d).Nodup ∧
        ∀ p, p ∈ mapAt s.slotsByDate_ d ↔
          ∃ slot, s.all_slots_[p]? = some slot ∧ slot.date_ = d ∧ slot.is_booked_ = false := by
  have hi := inv_of_reachable h
  exact ⟨fun d q => mem_iff_mapFind hi.keys d q, fun d => ⟨hi.nodup d, fun p => hi.pool d p⟩⟩

theorem pool_contents_witness :
    Reachable demo ∧
      ((∀ d q, (d, q) ∈ demo.slotsByDate_ ↔ mapFind demo.slotsByDate_ d = some q) ∧
        ∀ d, (mapAt demo.slotsByDate_ d).Nodup ∧
          ∀ p, p ∈ mapAt demo.slotsByDate_ d ↔
            ∃ slot, demo.all_slots_[p]? = some slot ∧ slot.date_ = d ∧
              slot.is_booked_ = false) :=
  ⟨reachable_demo, pool_contents demo reachable_demo⟩

/-- C3. In every reachable state the number of ledger bookings that reference a registry slot
is 1 when the slot is booked and 0 when it is not, and every booking references a booked slot
of the registry. -/
theorem booked_iff_one_booking (s : State) (h : Reachable s) :
    (∀ (p : Nat) (slot : TimeSlot), s.all_slots_[p]? = some slot →
      (s.patient_bookings_.map (fun b => b.assigned_slot_)).count p =
        if slot.is_booked_ then 1 else 0) ∧
      ∀ b ∈ s.patient_bookings_, ∃ slot,
        s.all_slots_[b.assigned_slot_]? = some slot ∧ slot.is_booked_ = true := by
  have hi := inv_of_reachable h
  constructor
  · intro p slot hp
    cases hb : slot.is_booked_ with
    | true =>
      have : p ∈ s.patient_bookings_.map (fun b => b.assigned_slot_) :=
        (hi.ledger p).2 ⟨slot, hp, hb⟩
      simpa using List.count_eq_one_of_mem hi.ledger_nodup this
    | false =>
      have : p ∉ s.patient_bookings_.map (fun b => b.assigned_slot_) := by
        intro hm
        obtain ⟨slot2, hp2, hb2⟩ := (hi.ledger p).1 hm
        rw [hp] at hp2; cases hp2
        rw [hb] at hb2; cases hb2
      simpa using List.count_eq_zero_of_not_mem this
  · intro b hb
    exact (hi.ledger b.assigned_slot_).1 (List.mem_map_of_mem _ hb)

theorem booked_iff_one_booking_witness :
    Reachable demo ∧
      ((∀ (p : Nat) (slot : TimeSlot), demo.all_slots_[p]? = some slot →
        (demo.patient_bookings_.map (fun b => b.assigned_slot_)).count p =
          if slot.is_booked_ then 1 else 0) ∧
        ∀ b ∈ demo.patient_bookings_, ∃ slot,
          demo.all_slots_[b.assigned_slot_]? = some slot ∧ slot.is_booked_ = true) :=
  ⟨reachable_demo, booked_iff_one_booking demo reachable_demo⟩

/-- C4. In every reachable state the size of the registry is the sum of the sizes of all date
pools plus the number of bookings in the ledger. -/
theorem conservation (s : State) (h : Reachable s) :
    s.all_slots_.length =
      (s.slotsByDate_.map (fun e => e.2.length)).sum + s.patient_bookings_.length :=
  (inv_of_reachable h).conservation

theorem conservation_witness :
    Reachable demo ∧
      demo.all_slots_.length =
        (demo.slotsByDate_.map (fun e => e.2.length)).sum + demo.patient_bookings_.length :=
  ⟨reachable_demo, conservation demo reachable_demo⟩

/-- C5. In every reachable state, the seeded start included, two slots at different positions
of the registry never have the same date and the same time, booked or not. -/
theorem no_duplicate_slots (s : State) (h : Reachable s) (i j : Nat) (a b : TimeSlot)
    (hi : s.all_slots_[i]? = some a) (hj : s.all_slots_[j]? = some b) (hne : i ≠ j) :
    ¬ (a.date_ = b.date_ ∧ a.time_ = b.time_) :=
  fun hdt => hne ((inv_of_reachable h).distinct i j a b hi hj hdt.1 hdt.2)

theorem no_duplicate_slots_witness :
    Reachable (seeded 19000) ∧ (seeded 19000).all_slots_[0]? = some ⟨1, 540, 19000, false⟩ ∧
      (seeded 19000).all_slots_[10]? = some ⟨11, 540, 19001, false⟩ ∧ 0 ≠ 10 ∧
      ¬ ((⟨1, 540, 19000, false⟩ : TimeSlot).date_ = (⟨11, 540, 19001, false⟩ : TimeSlot).date_ ∧
        (⟨1, 540, 19000, false⟩ : TimeSlot).time_ = (⟨11, 540, 19001, false⟩ : TimeSlot).time_) :=
  ⟨Reachable.seeded 19000, by decide, by decide, by decide,
    no_duplicate_slots (seeded 19000) (Reachable.seeded 19000) 0 10 _ _ (by decide) (by decide)
      (by decide)⟩

/-- C6. When the registry already holds a slot with the given date and time, booked or not,
`addSlot` reports a duplicate and returns the state unchanged (registry, pools, ledger and
identifier counter); and a second `addSlot` with the same valid date and time right after a
first one always reports a duplicate and changes nothing. -/
theorem addSlot_duplicate (s : State) (d t : Nat) :
    ((∃ slot ∈ s.all_slots_, slot.date_ = d ∧ slot.time_ = t) →
      addSlot s (.value d) (.value t) = (.duplicateSlot, s)) ∧
      addSlot (addSlot s (.value d) (.value t)).2 (.value d) (.value t) =
        (.duplicateSlot, (addSlot s (.value d) (.value t)).2) := by
  have key : ∀ s : State, (∃ slot ∈ s.all_slots_, slot.date_ = d ∧ slot.time_ = t) →
      addSlot s (.value d) (.value t) = (.duplicateSlot, s) := by
    intro s hex
    obtain ⟨slot, hm, hd, ht⟩ := hex
    have : s.all_slots_.any (fun slot => slot.date_ == d && slot.time_ == t) = true := by
      rw [List.any_eq_true]
      exact ⟨slot, hm, by simp [hd, ht]⟩
    simp [addSlot, this]
  refine ⟨key s, key _ ?_⟩
  by_cases hdup : s.all_slots_.any (fun slot => slot.date_ == d && slot.time_ == t) = true
  · have hd2 := hdup
    rw [List.any_eq_true] at hd2
    obtain ⟨slot, hm, hdt⟩ := hd2
    simp only [Bool.and_eq_true, beq_iff_eq] at hdt
    simp only [addSlot, hdup, if_true]
    exact ⟨slot, hm, hdt⟩
  · simp only [addSlot, hdup, if_false]
    exact ⟨⟨s.next_slot_id_, t, d, false⟩, by simp [createSlot], rfl, rfl⟩

theorem addSlot_duplicate_witness :
    (∃ slot ∈ demo.all_slots_, slot.date_ = 15 ∧ slot.time_ = 570) ∧
      addSlot demo (.value 15) (.value 570) = (.duplicateSlot, demo) ∧
      addSlot (addSlot demo (.value 15) (.value 540)).2 (.value 15) (.value 540) =
        (.duplicateSlot, (addSlot demo (.value 15) (.value 540)).2) :=
  ⟨⟨⟨1, 570, 15, true⟩, by decide, rfl, rfl⟩,
    (addSlot_duplicate demo 15 570).1 ⟨⟨1, 570, 15, true⟩, by decide, rfl, rfl⟩,
    (addSlot_duplicate demo 15 540).2⟩

/-! ## Support for the booking and cancellation claims -/

theorem deref_setBooked_ne (slots : List TimeSlot) {p i : Nat} (v : Bool) (h : i ≠ p) :
    deref (setBooked slots p v) i = deref slots i := by
  unfold deref
  simp only [List.getD_eq_getElem?_getD, getElem_setBooked]
  have : ¬ p = i := fun h2 => h h2.symm
  cases slots[i]? <;> simp [this]

theorem deref_setBooked_self {slots : List TimeSlot} {p : Nat} {sp : TimeSlot}
    (h : slots[p]? = some sp) (v : Bool) :
    deref (setBooked slots p v) p = { sp with is_booked_ := v } := by
  apply deref_eq_of_getElem
  rw [getElem_setBooked, h]
  simp

theorem comparator_setBooked (slots : List TimeSlot) (p : Nat) (v : Bool) :
    TimeSlotComparator (setBooked slots p v) = TimeSlotComparator slots := by
  funext a b
  have h1 := comparator_iff (setBooked slots p v) a b
  have h2 := comparator_iff slots a b
  rw [slotKey_setBooked] at h1
  rw [Bool.eq_iff_iff, h1, h2]

theorem setBooked_undo {slots : List TimeSlot} {p : Nat} {sp : TimeSlot}
    (h : slots[p]? = some sp) (hf : sp.is_booked_ = false) :
    setBooked (setBooked slots p true) p false = slots := by
  apply List.ext_getElem?
  intro i
  rw [getElem_setBooked, getElem_setBooked]
  by_cases hi : p = i
  · subst hi
    rw [h]
    simp only [Option.map_some', if_true]
    rw [← hf]
  · cases slots[i]? <;> simp [hi]

theorem available_congr {s t : State} (hs : Inv s) (ht : Inv t) (d : Nat)
    (hk : slotKey t.all_slots_ = slotKey s.all_slots_)
    (hp : (mapAt t.slotsByDate_ d).Perm (mapAt s.slotsByDate_ d)) :
    available t d = available s d := by
  refine available_unique hs d ((available_perm ht d).trans hp) ?_
  rw [← hk]
  exact available_sorted ht d

theorem rebuild_spec (slots : List TimeSlot) (l : List Nat) :
    PriorityQueue.IsHeap (slotKey slots)
        (l.foldl (PriorityQueue.push (TimeSlotComparator slots)) []) ∧
      (l.foldl (PriorityQueue.push (TimeSlotComparator slots)) []).Perm l := by
  have := PriorityQueue.foldl_push_spec (comparator_iff slots) l []
    (PriorityQueue.isHeap_nil _)
  simpa using this

theorem map_deref_congr {slots1 slots2 : List TimeSlot} {l : List Nat}
    (h : ∀ x ∈ l, deref slots1 x = deref slots2 x) :
    l.map (deref slots1) = l.map (deref slots2) :=
  List.map_congr_left h

/-- C9. In a reachable state, for a non-empty name and a date whose pool is not empty, when
no slot of that pool has the selected identifier `bookSlot` reports that the slot is no longer
available, and afterwards the listing of every date, the registry (so every booked flag), the
ledger and the identifier counter are what they were before the call. -/
theorem bookSlot_unavailable (s : State) (h : Reachable s) (d id : Nat) (name : String)
    (age : Int) (now : Nat) (hname : name.isEmpty = false)
    (hne : mapAt s.slotsByDate_ d ≠ [])
    (hno : ∀ p ∈ mapAt s.slotsByDate_ d, (deref s.all_slots_ p).id_ ≠ id) :
    (bookSlot s d (some id) name age now).1 = .slotError ∧
      (∀ e, listAvailable (bookSlot s d (some id) name age now).2 e = listAvailable s e) ∧
      (bookSlot s d (some id) name age now).2.all_slots_ = s.all_slots_ ∧
      (bookSlot s d (some id) name age now).2.patient_bookings_ = s.patient_bookings_ ∧
      (bookSlot s d (some id) name age now).2.next_slot_id_ = s.next_slot_id_ := by
  have hi := inv_of_reachable h
  have hi2 := inv_bookSlot hi d (some id) name age now
  rw [bookSlot_absent hi hne hno name age now hname] at hi2 ⊢
  refine ⟨rfl, ?_, rfl, rfl, rfl⟩
  intro e
  rw [listAvailable_eq, listAvailable_eq]
  rw [available_congr hi hi2 e rfl ?_]
  show (mapAt (mapSet s.slotsByDate_ d _) e).Perm (mapAt s.slotsByDate_ e)
  rw [mapAt_mapSet]
  split
  next he => subst he; exact (rebuild_spec _ _).2.trans (available_perm hi e)
  · exact List.Perm.refl _

theorem bookSlot_unavailable_witness :
    Reachable demo ∧ ("Bob".isEmpty = false) ∧ mapAt demo.slotsByDate_ 15 ≠ [] ∧
      (∀ p ∈ mapAt demo.slotsByDate_ 15, (deref demo.all_slots_ p).id_ ≠ 1) ∧
      (bookSlot demo 15 (some 1) "Bob" 40 7).1 = .slotError ∧
      (∀ e, listAvailable (bookSlot demo 15 (some 1) "Bob" 40 7).2 e = listAvailable demo e) ∧
      (bookSlot demo 15 (some 1) "Bob" 40 7).2.all_slots_ = demo.all_slots_ ∧
      (bookSlot demo 15 (some 1) "Bob" 40 7).2.patient_bookings_ = demo.patient_bookings_ ∧
      (bookSlot demo 15 (some 1) "Bob" 40 7).2.next_slot_id_ = demo.next_slot_id_ :=
  ⟨reachable_demo, by decide, by decide, by decide,
    bookSlot_unavailable demo reachable_demo 15 1 "Bob" 40 7 (by decide) (by decide)
      (by decide)⟩

theorem bookSlot_summary {s : State} (hi : Inv s) {d p : Nat}
    (hp : p ∈ mapAt s.slotsByDate_ d) (name : String) (age : Int) (now : Nat)
    (hname : name.isEmpty = false) :
    (bookSlot s d (some (deref s.all_slots_ p).id_) name age now).1 = .bookingConfirmed p ∧
      (bookSlot s d (some (deref s.all_slots_ p).id_) name age now).2.all_slots_ =
        setBooked s.all_slots_ p true ∧
      (bookSlot s d (some (deref s.all_slots_ p).id_) name age now).2.patient_bookings_ =
        s.patient_bookings_ ++ [⟨name, age, p, now⟩] ∧
      (bookSlot s d (some (deref s.all_slots_ p).id_) name age now).2.next_slot_id_ =
        s.next_slot_id_ ∧
      (mapAt (bookSlot s d (some (deref s.all_slots_ p).id_) name age now).2.slotsByDate_ d).Perm
        ((mapAt s.slotsByDate_ d).erase p) ∧
      ∀ e, e ≠ d →
        mapAt (bookSlot s d (some (deref s.all_slots_ p).id_) name age now).2.slotsByDate_ e =
          mapAt s.slotsByDate_ e := by
  rw [bookSlot_ok hi hp name age now hname]
  refine ⟨rfl, rfl, rfl, rfl, ?_, ?_⟩
  · show (mapAt (mapSet s.slotsByDate_ d _) d).Perm _
    rw [mapAt_mapSet_self]
    exact (rebuild_spec _ _).2.trans ((available_perm hi d).erase p)
  · intro e he
    exact mapAt_mapSet_ne _ _ he

theorem cancelSlot_summary {s : State} {index : Nat} {b : Patient} {sp : TimeSlot}
    (hb : s.patient_bookings_[index]? = some b)
    (hsp : s.all_slots_[b.assigned_slot_]? = some sp) :
    (cancelSlot s (some index)).1 = .bookingCancelled ∧
      (cancelSlot s (some index)).2.all_slots_ = setBooked s.all_slots_ b.assigned_slot_ false ∧
      (cancelSlot s (some index)).2.patient_bookings_ = s.patient_bookings_.eraseIdx index ∧
      (cancelSlot s (some index)).2.next_slot_id_ = s.next_slot_id_ ∧
      (mapAt (cancelSlot s (some index)).2.slotsByDate_ sp.date_).Perm
        (b.assigned_slot_ :: mapAt s.slotsByDate_ sp.date_) ∧
      ∀ e, e ≠ sp.date_ →
        mapAt (cancelSlot s (some index)).2.slotsByDate_ e = mapAt s.slotsByDate_ e := by
  have hdate : (deref (setBooked s.all_slots_ b.assigned_slot_ false) b.assigned_slot_).date_ =
      sp.date_ := by
    rw [deref_setBooked_self hsp]
  rw [cancelSlot_ok s hb]
  refine ⟨rfl, rfl, rfl, rfl, ?_, ?_⟩
  · show (mapAt (mapSet s.slotsByDate_ _ _) sp.date_).Perm _
    rw [hdate, mapAt_mapSet_self]
    exact PriorityQueue.push_perm _ _ _
  · intro e he
    show mapAt (mapSet s.slotsByDate_ _ _) e = _
    rw [hdate]
    exact mapAt_mapSet_ne _ _ he

theorem id_ne_iff {s : State} (hi : Inv s) {d p x : Nat} (hp : Free s.all_slots_ d p)
    (hx : Free s.all_slots_ d x) :
    ((deref s.all_slots_ x).id_ != (deref s.all_slots_ p).id_) = (x != p) := by
  obtain ⟨sp, hsp, _, _⟩ := hp
  obtain ⟨sx, hsx, _, _⟩ := hx
  rw [deref_eq_of_getElem hsp, deref_eq_of_getElem hsx, hi.ids p sp hsp, hi.ids x sx hsx]
  by_cases h : x = p
  · simp [h]
  · simp [h]

theorem listAvailable_other_date {s t : State} {d e p : Nat} {v : Bool}
    (hi : Inv s) (hslots : t.all_slots_ = setBooked s.all_slots_ p v)
    (hpd : ∀ sp, s.all_slots_[p]? = some sp → sp.date_ = d) (he : e ≠ d)
    (hm : mapAt t.slotsByDate_ e = mapAt s.slotsByDate_ e) :
    listAvailable t e = listAvailable s e := by
  rw [listAvailable_eq, listAvailable_eq]
  have : available t e = available s e := by
    unfold available
    rw [hm, hslots, comparator_setBooked]
  rw [this, hslots]
  apply map_deref_congr
  intro x hx
  apply deref_setBooked_ne
  rintro rfl
  obtain ⟨sx, hsx, hdx, _⟩ := (mem_available hi e x).1 hx
  exact he (hdx.symm.trans (hpd sx hsx))

/-- C8. In a reachable state, for a non-empty name and a slot identifier carried by a slot of
the pool of the date, `bookSlot` confirms the booking; afterwards (a) the listing of the date
is the previous listing without the slots of that identifier, which is one entry less, the
others keeping their order, (b) the pool and the listing of every other date are unchanged,
(c) the registry is the previous one with the booked flag of that slot set, and (d) the ledger
is the previous ledger with the booking of name, age and slot appended. -/
theorem bookSlot_success (s : State) (h : Reachable s) (d p slotId : Nat) (name : String)
    (age : Int) (now : Nat) (hname : name.isEmpty = false)
    (hp : p ∈ mapAt s.slotsByDate_ d) (hid : (deref s.all_slots_ p).id_ = slotId) :
    (bookSlot s d (some slotId) name age now).1 = .bookingConfirmed p ∧
      listAvailable (bookSlot s d (some slotId) name age now).2 d =
        (listAvailable s d).filter (fun slot => slot.id_ != slotId) ∧
      (listAvailable (bookSlot s d (some slotId) name age now).2 d).length + 1 =
        (listAvailable s d).length ∧
      (∀ e, e ≠ d →
        mapAt (bookSlot s d (some slotId) name age now).2.slotsByDate_ e =
            mapAt s.slotsByDate_ e ∧
          listAvailable (bookSlot s d (some slotId) name age now).2 e = listAvailable s e) ∧
      (bookSlot s d (some slotId) name age now).2.all_slots_ = setBooked s.all_slots_ p true ∧
      (bookSlot s d (some slotId) name age now).2.patient_bookings_ =
        s.patient_bookings_ ++ [⟨name, age, p, now⟩] := by
  subst hid
  have hi := inv_of_reachable h
  have hi2 := inv_bookSlot hi d (some (deref s.all_slots_ p).id_) name age now
  obtain ⟨h1, h2, h3, _, h5, h6⟩ := bookSlot_summary hi hp name age now hname
  have hpf := (hi.pool d p).1 hp
  have hav : available (bookSlot s d (some (deref s.all_slots_ p).id_) name age now).2 d =
      (available s d).erase p := by
    refine (available_unique hi2 d ?_ ?_).symm
    · exact ((available_perm hi d).erase p).trans h5.symm
    · rw [h2, slotKey_setBooked]
      exact (available_sorted hi d).sublist (List.erase_sublist p _)
  have hlist : listAvailable (bookSlot s d (some (deref s.all_slots_ p).id_) name age now).2 d =
      ((available s d).erase p).map (deref s.all_slots_) := by
    rw [listAvailable_eq, hav, h2]
    apply map_deref_congr
    intro x hx
    exact deref_setBooked_ne _ _ (((nodup_available hi d).mem_erase_iff).1 hx).1
  refine ⟨h1, ?_, ?_, ?_, h2, h3⟩
  · rw [hlist, listAvailable_eq, List.filter_map, (nodup_available hi d).erase_eq_filter]
    congr 1
    apply List.filter_congr
    intro x hx
    exact (id_ne_iff hi hpf ((mem_available hi d x).1 hx)).symm
  · rw [hlist, listAvailable_eq, List.length_map, List.length_map,
      List.length_erase_of_mem ((mem_available hi d p).2 hpf)]
    have : 0 < (available s d).length := List.length_pos_of_mem ((mem_available hi d p).2 hpf)
    omega
  · intro e he
    refine ⟨h6 e he, listAvailable_other_date hi h2 ?_ he (h6 e he)⟩
    intro sp hsp
    obtain ⟨sp2, hsp2, hd2, _⟩ := hpf
    rw [hsp] at hsp2; cases hsp2
    exact hd2

theorem bookSlot_success_witness :
    Reachable demo ∧ ("Bob".isEmpty = false) ∧ 3 ∈ mapAt demo.slotsByDate_ 15 ∧
      (deref demo.all_slots_ 3).id_ = 4 ∧
      (bookSlot demo 15 (some 4) "Bob" 40 7).1 = .bookingConfirmed 3 ∧
      listAvailable (bookSlot demo 15 (some 4) "Bob" 40 7).2 15 =
        (listAvailable demo 15).filter (fun slot => slot.id_ != 4) ∧
      (listAvailable (bookSlot demo 15 (some 4) "Bob" 40 7).2 15).length + 1 =
        (listAvailable demo 15).length ∧
      (∀ e, e ≠ 15 →
        mapAt (bookSlot demo 15 (some 4) "Bob" 40 7).2.slotsByDate_ e =
            mapAt demo.slotsByDate_ e ∧
          listAvailable (bookSlot demo 15 (some 4) "Bob" 40 7).2 e = listAvailable demo e) ∧
      (bookSlot demo 15 (some 4) "Bob" 40 7).2.all_slots_ = setBooked demo.all_slots_ 3 true ∧
      (bookSlot demo 15 (some 4) "Bob" 40 7).2.patient_bookings_ =
        demo.patient_bookings_ ++ [⟨"Bob", 40, 3, 7⟩] :=
  ⟨reachable_demo, by decide, by decide, by decide,
    bookSlot_success demo reachable_demo 15 3 4 "Bob" 40 7 (by decide) (by decide) (by decide)⟩

theorem lt_iff_slotKey (slots : List TimeSlot) (a b : Nat) :
    (deref slots a).lt (deref slots b) = true ↔ slotKey slots a < slotKey slots b := by
  unfold TimeSlot.lt slotKey
  rw [Prod.Lex.lt_iff]
  simp

/-- C7. In a reachable state, booking an unbooked slot under a non-empty name and then
cancelling the booking this created (the last entry of the ledger) gives a state in which the
listing of every date, the registry (so the slot is unbooked again), the ledger and the
identifier counter are what they were before the booking. -/
theorem book_cancel_roundtrip (s : State) (h : Reachable s) (p : Nat) (slot : TimeSlot)
    (name : String) (age : Int) (now : Nat) (hname : name.isEmpty = false)
    (hp : s.all_slots_[p]? = some slot) (hfree : slot.is_booked_ = false) :
    (bookSlot s slot.date_ (some slot.id_) name age now).1 = .bookingConfirmed p ∧
      (bookSlot s slot.date_ (some slot.id_) name age now).2.patient_bookings_[
          s.patient_bookings_.length]? = some ⟨name, age, p, now⟩ ∧
      (cancelSlot (bookSlot s slot.date_ (some slot.id_) name age now).2
          (some s.patient_bookings_.length)).1 = .bookingCancelled ∧
      (∀ e, listAvailable (cancelSlot (bookSlot s slot.date_ (some slot.id_) name age now).2
          (some s.patient_bookings_.length)).2 e = listAvailable s e) ∧
      (cancelSlot (bookSlot s slot.date_ (some slot.id_) name age now).2
          (some s.patient_bookings_.length)).2.all_slots_ = s.all_slots_ ∧
      (cancelSlot (bookSlot s slot.date_ (some slot.id_) name age now).2
          (some s.patient_bookings_.length)).2.patient_bookings_ = s.patient_bookings_ ∧
      (cancelSlot (bookSlot s slot.date_ (some slot.id_) name age now).2
          (some s.patient_bookings_.length)).2.next_slot_id_ = s.next_slot_id_ := by
  have hi := inv_of_reachable h
  have hpm : p ∈ mapAt s.slotsByDate_ slot.date_ := (hi.pool _ p).2 ⟨slot, hp, rfl, hfree⟩
  have hd : deref s.all_slots_ p = slot := deref_eq_of_getElem hp
  obtain ⟨b1, b2, b3, b4, b5, b6⟩ := bookSlot_summary hi hpm name age now hname
  rw [hd] at b1 b2 b3 b4 b5 b6
  have hi1 := inv_bookSlot hi slot.date_ (some slot.id_) name age now
  generalize (bookSlot s slot.date_ (some slot.id_) name age now) = r1 at *
  have hb : r1.2.patient_bookings_[s.patient_bookings_.length]? =
      some ⟨name, age, p, now⟩ := by
    rw [b3, List.getElem?_append_right (le_refl _)]
    simp
  have hsp : r1.2.all_slots_[(⟨name, age, p, now⟩ : Patient).assigned_slot_]? =
      some { slot with is_booked_ := true } := by
    show r1.2.all_slots_[p]? = _
    rw [b2, getElem_setBooked, hp]
    simp
  obtain ⟨c1, c2, c3, c4, c5, c6⟩ := cancelSlot_summary hb hsp
  have hi2 := inv_cancelSlot hi1 (some s.patient_bookings_.length)
  generalize (cancelSlot r1.2 (some s.patient_bookings_.length)) = r2 at *
  have hslots : r2.2.all_slots_ = s.all_slots_ := by
    rw [c2, b2]
    exact setBooked_undo hp hfree
  refine ⟨b1, hb, c1, ?_, hslots, ?_, by rw [c4, b4]⟩
  · intro e
    rw [listAvailable_eq, listAvailable_eq, hslots]
    congr 1
    refine available_congr hi hi2 e (by rw [hslots]) ?_
    by_cases he : e = slot.date_
    · subst he
      refine c5.trans ((b5.cons p).trans ?_)
      exact (List.perm_cons_erase hpm).symm
    · rw [c6 e he, b6 e he]
  · rw [c3, b3, List.eraseIdx_append_of_length_le (le_refl _)]
    simp

theorem book_cancel_roundtrip_witness :
    ("Bob".isEmpty = false) ∧ demo.all_slots_[3]? = some ⟨4, 555, 15, false⟩ ∧
      Reachable demo ∧
      (bookSlot demo 15 (some 4) "Bob" 40 7).1 = .bookingConfirmed 3 ∧
      (bookSlot demo 15 (some 4) "Bob" 40 7).2.patient_bookings_[
          demo.patient_bookings_.length]? = some ⟨"Bob", 40, 3, 7⟩ ∧
      (cancelSlot (bookSlot demo 15 (some 4) "Bob" 40 7).2
          (some demo.patient_bookings_.length)).1 = .bookingCancelled ∧
      (∀ e, listAvailable (cancelSlot (bookSlot demo 15 (some 4) "Bob" 40 7).2
          (some demo.patient_bookings_.length)).2 e = listAvailable demo e) ∧
      (cancelSlot (bookSlot demo 15 (some 4) "Bob" 40 7).2
          (some demo.patient_bookings_.length)).2.all_slots_ = demo.all_slots_ ∧
      (cancelSlot (bookSlot demo 15 (some 4) "Bob" 40 7).2
          (some demo.patient_bookings_.length)).2.patient_bookings_ = demo.patient_bookings_ ∧
      (cancelSlot (bookSlot demo 15 (some 4) "Bob" 40 7).2
          (some demo.patient_bookings_.length)).2.next_slot_id_ = demo.next_slot_id_ :=
  ⟨by decide, by decide, reachable_demo,
    book_cancel_roundtrip demo reachable_demo 3 ⟨4, 555, 15, false⟩ "Bob" 40 7 (by decide)
      (by decide) rfl⟩

/-- C10. In a reachable state, cancelling at a position below the ledger length removes
exactly the booking at that position, the others keeping their order; the registry changes
only in the booked flag of the referenced slot, which becomes false; the listing of the date
of that slot is the previous listing with the slot inserted between the strictly earlier and
the strictly later slots; the pool and the listing of every other date are unchanged. -/
theorem cancelSlot_success (s : State) (h : Reachable s) (index : Nat)
    (hidx : index < s.patient_bookings_.length) :
    ∃ (b : Patient) (sp : TimeSlot) (l1 l2 : List TimeSlot),
      s.patient_bookings_[index]? = some b ∧
      s.all_slots_[b.assigned_slot_]? = some sp ∧
      (cancelSlot s (some index)).1 = .bookingCancelled ∧
      (cancelSlot s (some index)).2.patient_bookings_ = s.patient_bookings_.eraseIdx index ∧
      (cancelSlot s (some index)).2.all_slots_ = setBooked s.all_slots_ b.assigned_slot_ false ∧
      listAvailable s sp.date_ = l1 ++ l2 ∧
      listAvailable (cancelSlot s (some index)).2 sp.date_ =
        l1 ++ { sp with is_booked_ := false } :: l2 ∧
      (∀ x ∈ l1, x.lt sp = true) ∧ (∀ x ∈ l2, sp.lt x = true) ∧
      ∀ e, e ≠ sp.date_ →
        mapAt (cancelSlot s (some index)).2.slotsByDate_ e = mapAt s.slotsByDate_ e ∧
          listAvailable (cancelSlot s (some index)).2 e = listAvailable s e := by
  have hi := inv_of_reachable h
  have hb : s.patient_bookings_[index]? = some s.patient_bookings_[index] :=
    List.getElem?_eq_getElem hidx
  generalize s.patient_bookings_[index] = b at hb
  obtain ⟨sp, hsp, hspb⟩ := (hi.ledger b.assigned_slot_).1
    (List.mem_map_of_mem _ (List.getElem?_mem hb))
  obtain ⟨c1, c2, c3, _, c5, c6⟩ := cancelSlot_summary hb hsp
  have hi2 := inv_cancelSlot hi (some index)
  generalize (cancelSlot s (some index)) = r at *
  generalize hpe : b.assigned_slot_ = p at *
  have hkey : slotKey r.2.all_slots_ = slotKey s.all_slots_ := by
    rw [c2, slotKey_setBooked]
  have hpin : p ∈ available r.2 sp.date_ :=
    ((available_perm hi2 sp.date_).trans c5).symm.subset (List.mem_cons_self _ _)
  have hnd := nodup_available hi2 sp.date_
  have hsorted := available_sorted hi2 sp.date_
  rw [hkey] at hsorted
  have hA : (available r.2 sp.date_).erase p = available s sp.date_ := by
    refine available_unique hi sp.date_ ?_ (hsorted.sublist (List.erase_sublist p _))
    have := ((available_perm hi2 sp.date_).trans c5).erase p
    simpa using this
  obtain ⟨a1, a2, hsplit⟩ := List.append_of_mem hpin
  rw [hsplit] at hnd hsorted hA
  have hp1 : p ∉ a1 := by
    intro hm
    have := List.nodup_append.1 hnd
    exact this.2.2 hm (List.mem_cons_self _ _)
  have hp2 : p ∉ a2 := by
    have := (List.nodup_append.1 hnd).2.1
    exact (List.nodup_cons.1 this).1
  rw [List.erase_append_right _ hp1, List.erase_cons_head] at hA
  have hfree2 : ∀ x ∈ a1 ++ p :: a2, Free r.2.all_slots_ sp.date_ x := by
    intro x hx
    rw [← hsplit] at hx
    exact (mem_available hi2 _ x).1 hx
  have hstrict : ∀ x y, x ∈ a1 ++ p :: a2 → y ∈ a1 ++ p :: a2 → x ≠ y →
      slotKey s.all_slots_ x ≤ slotKey s.all_slots_ y →
      slotKey s.all_slots_ x < slotKey s.all_slots_ y := by
    intro x y hx hy hne hle
    refine lt_of_le_of_ne hle ?_
    intro heq
    rw [← hkey] at heq
    exact hne (slotKey_inj hi2 (hfree2 x hx) (hfree2 y hy) heq)
  have hdp : deref s.all_slots_ p = sp := deref_eq_of_getElem hsp
  have hderef : ∀ x, x ≠ p → deref r.2.all_slots_ x = deref s.all_slots_ x := by
    intro x hx
    rw [c2]
    exact deref_setBooked_ne _ _ hx
  refine ⟨b, sp, a1.map (deref s.all_slots_), a2.map (deref s.all_slots_), hb,
    by rw [hpe]; exact hsp, c1, c3, by rw [hpe]; exact c2, ?_, ?_, ?_, ?_, ?_⟩
  · rw [listAvailable_eq, ← hA, List.map_append]
  · rw [listAvailable_eq, hsplit, List.map_append, List.map_cons]
    congr 1
    · apply map_deref_congr
      intro x hx
      exact hderef x (fun hxp => hp1 (hxp ▸ hx))
    · congr 1
      · rw [c2]
        exact deref_setBooked_self hsp false
      · apply map_deref_congr
        intro x hx
        exact hderef x (fun hxp => hp2 (hxp ▸ hx))
  · intro x hx
    obtain ⟨y, hy, rfl⟩ := List.mem_map.1 hx
    rw [← hdp, lt_iff_slotKey]
    have hle : slotKey s.all_slots_ y ≤ slotKey s.all_slots_ p :=
      (List.pairwise_append.1 hsorted).2.2 y hy p (List.mem_cons_self _ _)
    exact hstrict y p (List.mem_append_left _ hy)
      (List.mem_append_right _ (List.mem_cons_self _ _)) (fun hyp => hp1 (hyp ▸ hy)) hle
  · intro x hx
    obtain ⟨y, hy, rfl⟩ := List.mem_map.1 hx
    rw [← hdp, lt_iff_slotKey]
    have hle : slotKey s.all_slots_ p ≤ slotKey s.all_slots_ y :=
      (List.pairwise_cons.1 (List.pairwise_append.1 hsorted).2.1).1 y hy
    exact hstrict p y (List.mem_append_right _ (List.mem_cons_self _ _))
      (List.mem_append_right _ (List.mem_cons_of_mem _ hy)) (fun hyp => hp2 (hyp ▸ hy)) hle
  · intro e he
    refine ⟨c6 e he, listAvailable_other_date hi c2 ?_ he (c6 e he)⟩
    intro sp2 hsp2
    rw [hsp] at hsp2; cases hsp2
    rfl

theorem cancelSlot_success_witness :
    Reachable demo ∧ 0 < demo.patient_bookings_.length ∧
      ∃ (b : Patient) (sp : TimeSlot) (l1 l2 : List TimeSlot),
        demo.patient_bookings_[0]? = some b ∧
        demo.all_slots_[b.assigned_slot_]? = some sp ∧
        (cancelSlot demo (some 0)).1 = .bookingCancelled ∧
        (cancelSlot demo (some 0)).2.patient_bookings_ = demo.patient_bookings_.eraseIdx 0 ∧
        (cancelSlot demo (some 0)).2.all_slots_ =
          setBooked demo.all_slots_ b.assigned_slot_ false ∧
        listAvailable demo sp.date_ = l1 ++ l2 ∧
        listAvailable (cancelSlot demo (some 0)).2 sp.date_ =
          l1 ++ { sp with is_booked_ := false } :: l2 ∧
        (∀ x ∈ l1, x.lt sp = true) ∧ (∀ x ∈ l2, sp.lt x = true) ∧
        ∀ e, e ≠ sp.date_ →
          mapAt (cancelSlot demo (some 0)).2.slotsByDate_ e = mapAt demo.slotsByDate_ e ∧
            listAvailable (cancelSlot demo (some 0)).2 e = listAvailable demo e :=
  ⟨reachable_demo, by decide, cancelSlot_success demo reachable_demo 0 (by decide)⟩

/-! ## Support for the `addSlot` claims -/

theorem addSlot_ok (s : State) (d t : Nat)
    (hfresh : ∀ slot ∈ s.all_slots_, ¬ (slot.date_ = d ∧ slot.time_ = t)) :
    addSlot s (.value d) (.value t) = (.added s.next_slot_id_, createSlot s d t) := by
  have : ¬ (s.all_slots_.any (fun slot => slot.date_ == d && slot.time_ == t) = true) := by
    rw [List.any_eq_true]
    rintro ⟨slot, hm, hdt⟩
    simp only [Bool.and_eq_true, beq_iff_eq] at hdt
    exact hfresh slot hm hdt
  simp [addSlot, this]

theorem deref_append {slots : List TimeSlot} {x : Nat} (h : x < slots.length)
    (l : List TimeSlot) : deref (slots ++ l) x = deref slots x := by
  unfold deref
  simp only [List.getD_eq_getElem?_getD]
  rw [List.getElem?_append_left h]

theorem deref_snoc (slots : List TimeSlot) (x : TimeSlot) :
    deref (slots ++ [x]) slots.length = x := by
  apply deref_eq_of_getElem
  rw [getElem_snoc, if_neg (by omega), if_pos rfl]

theorem sorted_key_congr {slots1 slots2 : List TimeSlot} {l : List Nat}
    (hk : ∀ x ∈ l, slotKey slots1 x = slotKey slots2 x)
    (hs : l.Sorted (fun a b => slotKey slots1 a ≤ slotKey slots1 b)) :
    l.Sorted (fun a b => slotKey slots2 a ≤ slotKey slots2 b) := by
  refine List.Pairwise.imp_of_mem ?_ hs
  intro a b ha hb hab
  rw [← hk a ha, ← hk b hb]
  exact hab

theorem mapCount_mapSet_self (m : SlotMap) (d : Nat) (q : SlotQueue) :
    mapCount (mapSet m d q) d = 1 := by
  unfold mapCount
  rw [mapFind_mapSet, if_pos rfl]
  rfl

/-- C11. In a reachable state, for a valid date and time that no slot of the registry has,
`addSlot` succeeds with the next identifier; the registry is the previous one followed by the
new unbooked slot, the ledger is unchanged, the date has an entry in the map whose pool is the
previous pool plus the new slot, the listing of the date is the previous listing with the new
slot inserted between the strictly earlier and the strictly later slots, and the pool and the
listing of every other date are unchanged. -/
theorem addSlot_success (s : State) (h : Reachable s) (d t : Nat)
    (hfresh : ∀ slot ∈ s.all_slots_, ¬ (slot.date_ = d ∧ slot.time_ = t)) :
    ∃ l1 l2 : List TimeSlot,
      (addSlot s (.value d) (.value t)).1 = .added s.next_slot_id_ ∧
      (addSlot s (.value d) (.value t)).2.all_slots_ =
        s.all_slots_ ++ [⟨s.next_slot_id_, t, d, false⟩] ∧
      (addSlot s (.value d) (.value t)).2.patient_bookings_ = s.patient_bookings_ ∧
      mapCount (addSlot s (.value d) (.value t)).2.slotsByDate_ d = 1 ∧
      (mapAt (addSlot s (.value d) (.value t)).2.slotsByDate_ d).Perm
        (s.all_slots_.length :: mapAt s.slotsByDate_ d) ∧
      listAvailable s d = l1 ++ l2 ∧
      listAvailable (addSlot s (.value d) (.value t)).2 d =
        l1 ++ ⟨s.next_slot_id_, t, d, false⟩ :: l2 ∧
      (∀ x ∈ l1, x.lt ⟨s.next_slot_id_, t, d, false⟩ = true) ∧
      (∀ x ∈ l2, (⟨s.next_slot_id_, t, d, false⟩ : TimeSlot).lt x = true) ∧
      ∀ e, e ≠ d →
        mapAt (addSlot s (.value d) (.value t)).2.slotsByDate_ e = mapAt s.slotsByDate_ e ∧
          listAvailable (addSlot s (.value d) (.value t)).2 e = listAvailable s e := by
  have hi := inv_of_reachable h
  have hi2 : Inv (createSlot s d t) := inv_createSlot hi d t hfresh
  rw [addSlot_ok s d t hfresh]
  have hslots : (createSlot s d t).all_slots_ =
      s.all_slots_ ++ [⟨s.next_slot_id_, t, d, false⟩] := rfl
  have hperm : (mapAt (createSlot s d t).slotsByDate_ d).Perm
      (s.all_slots_.length :: mapAt s.slotsByDate_ d) := by
    show (mapAt (mapSet s.slotsByDate_ d _) d).Perm _
    rw [mapAt_mapSet_self]
    exact PriorityQueue.push_perm _ _ _
  have hother : ∀ e, e ≠ d →
      mapAt (createSlot s d t).slotsByDate_ e = mapAt s.slotsByDate_ e := by
    intro e he
    exact mapAt_mapSet_ne _ _ he
  have hold : ∀ e, ∀ x ∈ mapAt s.slotsByDate_ e, x < s.all_slots_.length :=
    fun e x hx => free_lt ((hi.pool e x).1 hx)
  have hkey : ∀ e, ∀ x ∈ mapAt s.slotsByDate_ e,
      slotKey (createSlot s d t).all_slots_ x = slotKey s.all_slots_ x :=
    fun e x hx => slotKey_append (hold e x hx) _
  generalize hn : s.all_slots_.length = n at *
  have hnin : n ∉ mapAt s.slotsByDate_ d := fun hm => by
    have := hold d n hm
    omega
  have hpin : n ∈ available (createSlot s d t) d :=
    ((available_perm hi2 d).trans hperm).symm.subset (List.mem_cons_self _ _)
  have hnd := nodup_available hi2 d
  have hsorted := available_sorted hi2 d
  have hA : (available (createSlot s d t) d).erase n = available s d := by
    have hp2 : ((available (createSlot s d t) d).erase n).Perm (mapAt s.slotsByDate_ d) := by
      have := ((available_perm hi2 d).trans hperm).erase n
      simpa using this
    refine available_unique hi d hp2 ?_
    refine sorted_key_congr ?_ (hsorted.sublist (List.erase_sublist n _))
    intro x hx
    exact hkey d x (hp2.subset hx)
  obtain ⟨a1, a2, hsplit⟩ := List.append_of_mem hpin
  rw [hsplit] at hnd hsorted hA
  have hp1 : n ∉ a1 := by
    intro hm
    exact (List.nodup_append.1 hnd).2.2 hm (List.mem_cons_self _ _)
  have hp2 : n ∉ a2 := (List.nodup_cons.1 (List.nodup_append.1 hnd).2.1).1
  rw [List.erase_append_right _ hp1, List.erase_cons_head] at hA
  have hfree2 : ∀ x ∈ a1 ++ n :: a2, Free (createSlot s d t).all_slots_ d x := by
    intro x hx
    rw [← hsplit] at hx
    exact (mem_available hi2 _ x).1 hx
  have hstrict : ∀ x y, x ∈ a1 ++ n :: a2 → y ∈ a1 ++ n :: a2 → x ≠ y →
      slotKey (createSlot s d t).all_slots_ x ≤ slotKey (createSlot s d t).all_slots_ y →
      slotKey (createSlot s d t).all_slots_ x < slotKey (createSlot s d t).all_slots_ y := by
    intro x y hx hy hne hle
    refine lt_of_le_of_ne hle ?_
    intro heq
    exact hne (slotKey_inj hi2 (hfree2 x hx) (hfree2 y hy) heq)
  have hmemA : ∀ x, x ∈ a1 ∨ x ∈ a2 → x < n := by
    intro x hx
    have hxA : x ∈ available s d := by
      rw [← hA]
      exact List.mem_append.2 hx
    rw [← hn]
    exact free_lt ((mem_available hi d x).1 hxA)
  have hderef : ∀ x, x < n → deref (createSlot s d t).all_slots_ x = deref s.all_slots_ x := by
    intro x hx
    rw [hslots]
    exact deref_append (by omega) _
  have hdn : deref (createSlot s d t).all_slots_ n = ⟨s.next_slot_id_, t, d, false⟩ := by
    rw [hslots, ← hn]
    exact deref_snoc _ _
  refine ⟨a1.map (deref s.all_slots_), a2.map (deref s.all_slots_), rfl, hslots, rfl,
    mapCount_mapSet_self _ _ _, hperm, ?_, ?_, ?_, ?_, ?_⟩
  · rw [listAvailable_eq, ← hA, List.map_append]
  · rw [listAvailable_eq, hsplit, List.map_append, List.map_cons, hdn]
    congr 1
    · apply map_deref_congr
      intro x hx
      exact hderef x (hmemA x (Or.inl hx))
    · congr 1
      apply map_deref_congr
      intro x hx
      exact hderef x (hmemA x (Or.inr hx))
  · intro x hx
    obtain ⟨y, hy, rfl⟩ := List.mem_map.1 hx
    rw [← hderef y (hmemA y (Or.inl hy)), ← hdn, lt_iff_slotKey]
    have hle := (List.pairwise_append.1 hsorted).2.2 y hy n (List.mem_cons_self _ _)
    exact hstrict y n (List.mem_append_left _ hy)
      (List.mem_append_right _ (List.mem_cons_self _ _)) (fun hyp => hp1 (hyp ▸ hy)) hle
  · intro x hx
    obtain ⟨y, hy, rfl⟩ := List.mem_map.1 hx
    rw [← hderef y (hmemA y (Or.inr hy)), ← hdn, lt_iff_slotKey]
    have hle := (List.pairwise_cons.1 (List.pairwise_append.1 hsorted).2.1).1 y hy
    exact hstrict n y (List.mem_append_right _ (List.mem_cons_self _ _))
      (List.mem_append_right _ (List.mem_cons_of_mem _ hy)) (fun hyp => hp2 (hyp ▸ hy)) hle
  · intro e he
    refine ⟨hother e he, ?_⟩
    rw [listAvailable_eq, listAvailable_eq]
    have hav : available (createSlot s d t) e = available s e := by
      have hp3 : (available (createSlot s d t) e).Perm (mapAt s.slotsByDate_ e) := by
        have := available_perm hi2 e
        rwa [hother e he] at this
      refine available_unique hi e hp3 (sorted_key_congr ?_ (available_sorted hi2 e))
      intro x hx
      exact hkey e x (hp3.subset hx)
    rw [hav]
    apply map_deref_congr
    intro x hx
    apply hderef
    rw [← hn]
    exact free_lt ((mem_available hi e x).1 hx)

theorem addSlot_success_witness :
    Reachable demo ∧ (∀ slot ∈ demo.all_slots_, ¬ (slot.date_ = 15 ∧ slot.time_ = 550)) ∧
      ∃ l1 l2 : List TimeSlot,
        (addSlot demo (.value 15) (.value 550)).1 = .added demo.next_slot_id_ ∧
        (addSlot demo (.value 15) (.value 550)).2.all_slots_ =
          demo.all_slots_ ++ [⟨demo.next_slot_id_, 550, 15, false⟩] ∧
        (addSlot demo (.value 15) (.value 550)).2.patient_bookings_ = demo.patient_bookings_ ∧
        mapCount (addSlot demo (.value 15) (.value 550)).2.slotsByDate_ 15 = 1 ∧
        (mapAt (addSlot demo (.value 15) (.value 550)).2.slotsByDate_ 15).Perm
          (demo.all_slots_.length :: mapAt demo.slotsByDate_ 15) ∧
        listAvailable demo 15 = l1 ++ l2 ∧
        listAvailable (addSlot demo (.value 15) (.value 550)).2 15 =
          l1 ++ ⟨demo.next_slot_id_, 550, 15, false⟩ :: l2 ∧
        (∀ x ∈ l1, x.lt ⟨demo.next_slot_id_, 550, 15, false⟩ = true) ∧
        (∀ x ∈ l2, (⟨demo.next_slot_id_, 550, 15, false⟩ : TimeSlot).lt x = true) ∧
        ∀ e, e ≠ 15 →
          mapAt (addSlot demo (.value 15) (.value 550)).2.slotsByDate_ e =
              mapAt demo.slotsByDate_ e ∧
            listAvailable (addSlot demo (.value 15) (.value 550)).2 e = listAvailable demo e :=
  ⟨reachable_demo, by decide,
    addSlot_success demo reachable_demo 15 550 (by decide)⟩

/-! ## Support for the identifier claim -/

theorem next_bookSlot (s : State) (d : Nat) (selection : Option Nat) (name : String)
    (age : Int) (now : Nat) :
    (bookSlot s d selection name age now).2.next_slot_id_ = s.next_slot_id_ := by
  unfold bookSlot
  split
  · rfl
  · split
    · rfl
    · split
      · rfl
      · dsimp only
        split <;> rfl

theorem next_cancelSlot (s : State) (choice : Option Nat) :
    (cancelSlot s choice).2.next_slot_id_ = s.next_slot_id_ := by
  unfold cancelSlot
  split
  · rfl
  · split
    · rfl
    · split <;> rfl

theorem next_addSlot (s : State) (date time : Input) :
    ((∃ id, (addSlot s date time).1 = .added id) →
      (addSlot s date time).1 = .added s.next_slot_id_ ∧
        (addSlot s date time).2.next_slot_id_ = s.next_slot_id_ + 1) ∧
      ((∀ id, (addSlot s date time).1 ≠ .added id) → (addSlot s date time).2 = s) := by
  unfold addSlot
  split
  · exact ⟨fun ⟨id, h⟩ => (by cases h), fun _ => rfl⟩
  · exact ⟨fun ⟨id, h⟩ => (by cases h), fun _ => rfl⟩
  · exact ⟨fun ⟨id, h⟩ => (by cases h), fun _ => rfl⟩
  · exact ⟨fun ⟨id, h⟩ => (by cases h), fun _ => rfl⟩
  · split
    · exact ⟨fun ⟨id, h⟩ => (by cases h), fun _ => rfl⟩
    · exact ⟨fun _ => ⟨rfl, rfl⟩, fun h => (h _ rfl).elim⟩

theorem next_le_step (s : State) (c : Call) : s.next_slot_id_ ≤ (step s c).next_slot_id_ := by
  cases c with
  | addSlot date time =>
    show s.next_slot_id_ ≤ (addSlot s date time).2.next_slot_id_
    by_cases hex : ∃ id, (addSlot s date time).1 = .added id
    · rw [((next_addSlot s date time).1 hex).2]; omega
    · rw [(next_addSlot s date time).2 (fun id hid => hex ⟨id, hid⟩)]
  | bookSlot d sel name age now =>
    show s.next_slot_id_ ≤ (bookSlot s d sel name age now).2.next_slot_id_
    rw [next_bookSlot]
  | cancelSlot choice =>
    show s.next_slot_id_ ≤ (cancelSlot s choice).2.next_slot_id_
    rw [next_cancelSlot]

theorem next_le_run : ∀ (calls : List Call) (s : State),
    s.next_slot_id_ ≤ (run s calls).next_slot_id_
  | [], _ => le_refl _
  | c :: calls, s => le_trans (next_le_step s c) (next_le_run calls (step s c))

theorem length_foldl_createSlot : ∀ (l : List (Nat × Nat)) (s : State),
    (l.foldl (fun s x => createSlot s x.1 x.2) s).all_slots_.length =
      s.all_slots_.length + l.length
  | [], s => rfl
  | x :: l, s => by
    rw [List.foldl_cons, length_foldl_createSlot l]
    simp only [createSlot, List.length_append, List.length_singleton, List.length_cons,
      List.length_nil]
    omega

theorem foldr_max_le {l : List Nat} {n : Nat} (h : ∀ x ∈ l, x ≤ n) : l.foldr max 0 ≤ n := by
  induction l with
  | nil => exact Nat.zero_le _
  | cons a l ih =>
    simp only [List.foldr_cons]
    exact max_le (h a (List.mem_cons_self _ _)) (ih fun x hx => h x (List.mem_cons_of_mem _ hx))

theorem foldr_max_eq {l : List Nat} {n : Nat} (h : ∀ x ∈ l, x ≤ n) (hn : n ∈ l) :
    l.foldr max 0 = n := by
  refine le_antisymm (foldr_max_le h) ?_
  clear h
  induction l with
  | nil => simp at hn
  | cons a l ih =>
    simp only [List.foldr_cons]
    rcases List.mem_cons.1 hn with rfl | hm
    · exact le_max_left _ _
    · exact le_trans (ih hm) (le_max_right _ _)

theorem max_id_eq_length {s : State} (hi : Inv s) :
    (s.all_slots_.map (fun slot => slot.id_)).foldr max 0 = s.all_slots_.length := by
  by_cases hnil : s.all_slots_ = []
  · rw [hnil]; rfl
  · have hpos : 0 < s.all_slots_.length := List.length_pos.2 hnil
    apply foldr_max_eq
    · intro x hx
      obtain ⟨slot, hm, rfl⟩ := List.mem_map.1 hx
      obtain ⟨i, hget⟩ := List.getElem?_of_mem hm
      have := hi.ids i slot hget
      have := PriorityQueue.lt_length_of_getElem hget
      omega
    · have hget : s.all_slots_[s.all_slots_.length - 1]? =
          some s.all_slots_[s.all_slots_.length - 1] := List.getElem?_eq_getElem (by omega)
      have := hi.ids _ _ hget
      refine List.mem_map.2 ⟨_, List.getElem?_mem hget, ?_⟩
      omega

/-- C12, as stated, fails after the startup seeding: the seeding takes the identifiers 1 to
30, so the first `addSlot` on the constructed window returns 31 and not 1. -/
theorem first_identifier_after_seeding :
    Reachable (seeded 19000) ∧
      (addSlot (seeded 19000) (.value 19005) (.value 480)).1 = .added 31 ∧
      ¬ (∀ today d t id,
        (addSlot (seeded today) (.value d) (.value t)).1 = .added id → id = 1) :=
  ⟨Reachable.seeded 19000, by decide, fun h => by
    have := h 19000 19005 480 31 (by decide)
    omega⟩

/-- C12, amended. In every reachable state a successful `addSlot` returns the largest
identifier of the registry plus 1 (0 standing for the empty registry), which is the size of
the registry plus 1, and advances the counter by one: the first successful `addSlot` returns 1
from the empty start and 31 after the seeding.  A failed `addSlot` leaves the state unchanged,
`bookSlot` and `cancelSlot` leave the counter unchanged, and a later successful `addSlot`,
after any calls in between, returns a strictly larger identifier. -/
theorem identifiers_increasing (s : State) (h : Reachable s) :
    (∀ date time id, (addSlot s date time).1 = .added id →
      id = (s.all_slots_.map (fun slot => slot.id_)).foldr max 0 + 1 ∧
        id = s.all_slots_.length + 1 ∧
        (addSlot s date time).2.next_slot_id_ = id + 1 ∧
        ∀ calls date2 time2 id2,
          (addSlot (run (addSlot s date time).2 calls) date2 time2).1 = .added id2 →
            id < id2) ∧
      (∀ date time id, (addSlot init date time).1 = .added id → id = 1) ∧
      (∀ today date time id, (addSlot (seeded today) date time).1 = .added id → id = 31) ∧
      (∀ date time, (∀ id, (addSlot s date time).1 ≠ .added id) →
        (addSlot s date time).2 = s) ∧
      (∀ d selection name age now,
        (bookSlot s d selection name age now).2.next_slot_id_ = s.next_slot_id_) ∧
      (∀ choice, (cancelSlot s choice).2.next_slot_id_ = s.next_slot_id_) := by
  have key : ∀ s : State, Inv s → ∀ date time id, (addSlot s date time).1 = .added id →
      id = s.all_slots_.length + 1 ∧ (addSlot s date time).2.next_slot_id_ = id + 1 := by
    intro s hi date time id hid
    obtain ⟨h1, h2⟩ := (next_addSlot s date time).1 ⟨id, hid⟩
    rw [h1] at hid
    cases hid
    exact ⟨hi.next, h2⟩
  have hi := inv_of_reachable h
  refine ⟨?_, ?_, ?_, fun date time => (next_addSlot s date time).2,
    fun d sel name age now => next_bookSlot s d sel name age now,
    fun choice => next_cancelSlot s choice⟩
  · intro date time id hid
    obtain ⟨k1, k2⟩ := key s hi date time id hid
    refine ⟨by rw [max_id_eq_length hi]; exact k1, k1, k2, ?_⟩
    intro calls date2 time2 id2 hid2
    obtain ⟨h1, _⟩ := (next_addSlot _ date2 time2).1 ⟨id2, hid2⟩
    rw [h1] at hid2
    cases hid2
    have := next_le_run calls (addSlot s date time).2
    omega
  · intro date time id hid
    exact (key init inv_init date time id hid).1
  · intro today date time id hid
    have := (key (seeded today) (inv_seeded today) date time id hid).1
    have hlen : (seeded today).all_slots_.length = 30 := by
      unfold seeded
      rw [addSampleSlots_eq, length_foldl_createSlot]
      rfl
    omega

theorem identifiers_increasing_witness :
    Reachable demo ∧
      ((∀ date time id, (addSlot demo date time).1 = .added id →
        id = (demo.all_slots_.map (fun slot => slot.id_)).foldr max 0 + 1 ∧
          id = demo.all_slots_.length + 1 ∧
          (addSlot demo date time).2.next_slot_id_ = id + 1 ∧
          ∀ calls date2 time2 id2,
            (addSlot (run (addSlot demo date time).2 calls) date2 time2).1 = .added id2 →
              id < id2) ∧
        (∀ date time id, (addSlot init date time).1 = .added id → id = 1) ∧
        (∀ today date time id, (addSlot (seeded today) date time).1 = .added id → id = 31) ∧
        (∀ date time, (∀ id, (addSlot demo date time).1 ≠ .added id) →
          (addSlot demo date time).2 = demo) ∧
        (∀ d selection name age now,
          (bookSlot demo d selection name age now).2.next_slot_id_ = demo.next_slot_id_) ∧
        (∀ choice, (cancelSlot demo choice).2.next_slot_id_ = demo.next_slot_id_)) :=
  ⟨reachable_demo, identifiers_increasing demo reachable_demo⟩

/-! ## The age of the patient and the order of the pools -/

theorem lt_iff (a b : TimeSlot) :
    a.lt b = true ↔ a.date_ < b.date_ ∨ (a.date_ = b.date_ ∧ a.time_ < b.time_) := by
  unfold TimeSlot.lt
  simp

/-- C14, as stated, fails: two slots with different identifiers and the same date and time
are ordered in neither direction by `operator<`, `operator>` and the comparator of the pools;
the identifier breaks no tie. -/
theorem equal_timestamps_unordered :
    (⟨1, 540, 15, false⟩ : TimeSlot).id_ ≠ (⟨2, 540, 15, false⟩ : TimeSlot).id_ ∧
      (⟨1, 540, 15, false⟩ : TimeSlot).lt ⟨2, 540, 15, false⟩ = false ∧
      (⟨2, 540, 15, false⟩ : TimeSlot).lt ⟨1, 540, 15, false⟩ = false ∧
      (⟨1, 540, 15, false⟩ : TimeSlot).gt ⟨2, 540, 15, false⟩ = false ∧
      (⟨2, 540, 15, false⟩ : TimeSlot).gt ⟨1, 540, 15, false⟩ = false ∧
      TimeSlotComparator [⟨1, 540, 15, false⟩, ⟨2, 540, 15, false⟩] 0 1 = false ∧
      TimeSlotComparator [⟨1, 540, 15, false⟩, ⟨2, 540, 15, false⟩] 1 0 = false ∧
      ¬ (∀ a b : TimeSlot, a.id_ ≠ b.id_ →
        (a.lt b = true ∧ b.lt a = false) ∨ (b.lt a = true ∧ a.lt b = false)) := by
  refine ⟨by decide, by decide, by decide, by decide, by decide, by decide, by decide, ?_⟩
  intro h
  have := h ⟨1, 540, 15, false⟩ ⟨2, 540, 15, false⟩ (by decide)
  revert this
  decide

theorem available_strict {s : State} (hi : Inv s) (d : Nat) :
    (available s d).Pairwise (fun a b => slotKey s.all_slots_ a < slotKey s.all_slots_ b) := by
  have h1 : (available s d).Pairwise
      (fun a b => slotKey s.all_slots_ a ≤ slotKey s.all_slots_ b ∧ a ≠ b) :=
    (available_sorted hi d).and (nodup_available hi d)
  refine List.Pairwise.imp_of_mem ?_ h1
  intro a b ha hb hab
  refine lt_of_le_of_ne hab.1 ?_
  intro heq
  exact hab.2 (slotKey_inj hi ((mem_available hi d a).1 ha) ((mem_available hi d b).1 hb) heq)

/-- C14, amended. The order of the pools looks at the (date, time) timestamp only:
`operator<` is the lexicographic comparison of date and time, `operator>` is its converse and
is what the comparator of the pools applies, `operator==` compares identifiers and takes no
part in the order.  For any two slots exactly one of `a < b`, `b < a`, equal timestamps holds,
and `<` is transitive.  In a reachable state two registry slots with different identifiers
have different timestamps, so exactly one of `a < b`, `b < a` holds for them, and the listing
of every date is strictly ascending by timestamp, hence ascending by (date, time, id). -/
theorem timestamp_order (s : State) (h : Reachable s) :
    (∀ a b : TimeSlot,
      (a.lt b = true ↔ a.date_ < b.date_ ∨ (a.date_ = b.date_ ∧ a.time_ < b.time_)) ∧
        a.gt b = b.lt a ∧ (a.eq b = true ↔ a.id_ = b.id_)) ∧
      (∀ slots a b, TimeSlotComparator slots a b = (deref slots b).lt (deref slots a)) ∧
      (∀ a b : TimeSlot,
        (a.lt b = true ∧ b.lt a = false ∧ ¬ (a.date_ = b.date_ ∧ a.time_ = b.time_)) ∨
          (b.lt a = true ∧ a.lt b = false ∧ ¬ (a.date_ = b.date_ ∧ a.time_ = b.time_)) ∨
          (a.lt b = false ∧ b.lt a = false ∧ a.date_ = b.date_ ∧ a.time_ = b.time_)) ∧
      (∀ a b c : TimeSlot, a.lt b = true → b.lt c = true → a.lt c = true) ∧
      (∀ (i j : Nat) (a b : TimeSlot), s.all_slots_[i]? = some a → s.all_slots_[j]? = some b →
        a.id_ ≠ b.id_ →
          (a.lt b = true ∧ b.lt a = false) ∨ (b.lt a = true ∧ a.lt b = false)) ∧
      ∀ d, (listAvailable s d).Sorted (fun a b => a.lt b = true) ∧
        (listAvailable s d).Sorted (fun a b =>
          a.lt b = true ∨ (a.date_ = b.date_ ∧ a.time_ = b.time_ ∧ a.id_ < b.id_)) := by
  have hi := inv_of_reachable h
  have htri : ∀ a b : TimeSlot,
      (a.lt b = true ∧ b.lt a = false ∧ ¬ (a.date_ = b.date_ ∧ a.time_ = b.time_)) ∨
        (b.lt a = true ∧ a.lt b = false ∧ ¬ (a.date_ = b.date_ ∧ a.time_ = b.time_)) ∨
        (a.lt b = false ∧ b.lt a = false ∧ a.date_ = b.date_ ∧ a.time_ = b.time_) := by
    intro a b
    have e1 : ∀ x y : TimeSlot, x.lt y = false ↔ ¬ (x.lt y = true) := by
      intro x y; simp
    rw [e1 a b, e1 b a, lt_iff a b, lt_iff b a]
    omega
  have hstrict : ∀ d, (listAvailable s d).Sorted (fun a b => a.lt b = true) := by
    intro d
    rw [listAvailable_eq]
    unfold List.Sorted
    rw [List.pairwise_map]
    refine (available_strict hi d).imp ?_
    intro a b hab
    exact (lt_iff_slotKey _ a b).2 hab
  refine ⟨?_, ?_, htri, ?_, ?_, ?_⟩
  · intro a b
    refine ⟨lt_iff a b, rfl, ?_⟩
    unfold TimeSlot.eq
    simp
  · intro slots a b
    rfl
  · intro a b c hab hbc
    rw [lt_iff] at hab hbc ⊢
    omega
  · intro i j a b ha hb hne
    have hij : i ≠ j := by
      rintro rfl
      rw [ha] at hb
      cases hb
      exact hne rfl
    have hdist : ¬ (a.date_ = b.date_ ∧ a.time_ = b.time_) :=
      fun hdt => hij (hi.distinct i j a b ha hb hdt.1 hdt.2)
    rcases htri a b with h1 | h1 | h1
    · exact Or.inl ⟨h1.1, h1.2.1⟩
    · exact Or.inr ⟨h1.1, h1.2.1⟩
    · exact (hdist h1.2.2).elim
  · intro d
    exact ⟨hstrict d, (hstrict d).imp fun hab => Or.inl hab⟩

theorem timestamp_order_witness :
    Reachable demo ∧
      ((∀ a b : TimeSlot,
        (a.lt b = true ↔ a.date_ < b.date_ ∨ (a.date_ = b.date_ ∧ a.time_ < b.time_)) ∧
          a.gt b = b.lt a ∧ (a.eq b = true ↔ a.id_ = b.id_)) ∧
        (∀ slots a b, TimeSlotComparator slots a b = (deref slots b).lt (deref slots a)) ∧
        (∀ a b : TimeSlot,
          (a.lt b = true ∧ b.lt a = false ∧ ¬ (a.date_ = b.date_ ∧ a.time_ = b.time_)) ∨
            (b.lt a = true ∧ a.lt b = false ∧ ¬ (a.date_ = b.date_ ∧ a.time_ = b.time_)) ∨
            (a.lt b = false ∧ b.lt a = false ∧ a.date_ = b.date_ ∧ a.time_ = b.time_)) ∧
        (∀ a b c : TimeSlot, a.lt b = true → b.lt c = true → a.lt c = true) ∧
        (∀ (i j : Nat) (a b : TimeSlot), demo.all_slots_[i]? = some a →
          demo.all_slots_[j]? = some b → a.id_ ≠ b.id_ →
            (a.lt b = true ∧ b.lt a = false) ∨ (b.lt a = true ∧ a.lt b = false)) ∧
        ∀ d, (listAvailable demo d).Sorted (fun a b => a.lt b = true) ∧
          (listAvailable demo d).Sorted (fun a b =>
            a.lt b = true ∨ (a.date_ = b.date_ ∧ a.time_ = b.time_ ∧ a.id_ < b.id_))) :=
  ⟨reachable_demo, timestamp_order demo reachable_demo⟩

end Scheduler
